import Mathlib

/-!
Verification development for the kraken crawling engine.

Shallow embedding of the core data model and operations:
flat string-keyed dictionaries (kwargs, payloads), the historic-document
history/save algorithm, the spider iteration protocol, slim-target merging,
the static and overlap terminators with the stage-processor loop, the
target-discovery pipeline, and the pipeline-result addition law.
-/

/-- Flat string-keyed map, the embedding of a (non-nested) Python dict.
Kept in strictly key-sorted canonical form so that Python dict equality
(which ignores insertion order) coincides with structural equality. -/
abbrev KW (α : Type) : Type := List (String × α)

/-- Strictly increasing key order: the canonical-form invariant for `KW`. -/
def SortedK {α : Type} (l : KW α) : Prop :=
  List.Pairwise (fun p q : String × α => p.1 < q.1) l

/-- Lookup `d[k]` on a flat dict. -/
def flookup {α : Type} (k : String) : KW α → Option α
  | [] => none
  | (k2, v) :: t => if k = k2 then some v else flookup k t

/-- Python `dict.update`: right-biased merge, embedded as a sorted-list
merge (`a.copy()` then `a.update(b)`; values of `b` win on shared keys). -/
def dictUpdate {α : Type} : KW α → KW α → KW α
  | [], b => b
  | a, [] => a
  | (k1, v1) :: t1, (k2, v2) :: t2 =>
    if k1 < k2 then (k1, v1) :: dictUpdate t1 ((k2, v2) :: t2)
    else if k2 < k1 then (k2, v2) :: dictUpdate ((k1, v1) :: t1) t2
    else (k2, v2) :: dictUpdate t1 t2

/-! ## JSON patches over flat payloads (`jsonpatch.make_patch` / apply)

`historic_document.py` serialises the live and the persistent document to
JSON and calls `jsonpatch.make_patch(new, old)`.  Payloads are embedded as
flat string-valued dicts; the patch operations are modelled at whole-field
granularity (replace / add / remove on one top-level key), which is the
JSON-Patch behaviour on such objects. -/

/-- Payload of a historic document: a flat JSON object with string values. -/
abbrev Payload : Type := KW String

/-- One JSON-Patch operation on a flat object. -/
inductive JOp where
  | replace (key value : String)
  | add (key value : String)
  | remove (key : String)
deriving DecidableEq, Repr

/-- The top-level key an operation touches. -/
def opKey : JOp → String
  | JOp.replace k _ => k
  | JOp.add k _ => k
  | JOp.remove k => k

/-- Embeds `jsonpatch.make_patch(src, dst)`: the operation list that rewrites `src`
into `dst`.  Both inputs are in canonical sorted form; the generator walks
the sorted key union. -/
def make_patch : Payload → Payload → List JOp
  | [], [] => []
  | [], (k2, v2) :: t2 => JOp.add k2 v2 :: make_patch [] t2
  | (k1, _) :: t1, [] => JOp.remove k1 :: make_patch t1 []
  | (k1, v1) :: t1, (k2, v2) :: t2 =>
    if k1 < k2 then JOp.remove k1 :: make_patch t1 ((k2, v2) :: t2)
    else if k2 < k1 then JOp.add k2 v2 :: make_patch ((k1, v1) :: t1) t2
    else if v1 = v2 then make_patch t1 t2
    else JOp.replace k1 v2 :: make_patch t1 t2

/-- Insert a key/value into a sorted payload (JSON-Patch `add` on an
object; also the effect of `replace` when the key is present). -/
def setKey (k : String) (v : String) : Payload → Payload
  | [] => [(k, v)]
  | (k2, v2) :: t =>
    if k < k2 then (k, v) :: (k2, v2) :: t
    else if k2 < k then (k2, v2) :: setKey k v t
    else (k, v) :: t

/-- Delete a key from a sorted payload (JSON-Patch `remove`). -/
def delKey (k : String) : Payload → Payload
  | [] => []
  | (k2, v2) :: t => if k = k2 then t else (k2, v2) :: delKey k t

/-- Apply one JSON-Patch operation to a payload. -/
def applyOp (p : Payload) : JOp → Payload
  | JOp.replace k v => setKey k v p
  | JOp.add k v => setKey k v p
  | JOp.remove k => delKey k p

/-- Apply a whole `changes` list to a payload. -/
def applyPatch (ops : List JOp) (p : Payload) : Payload :=
  ops.foldl applyOp p

/-! ## Historic documents (`historic_document.py`)

`HistoricDocument` carries the payload plus two embedded lists,
`witnesses` and `updates`.  Timestamps are embedded as integers (epoch
seconds).  The `Witness` MongoEngine field declares
`DateTimeField(default=datetime.utcnow())` — the default is **evaluated
once, when the class is created** — so every `Witness(crawl=crawl)`
constructed by `history` carries the module-load wall-clock time, embedded
below as the explicit parameter `moduleLoad`.  `Patch` declares the
callable `default=datetime.utcnow`, so a patch is stamped with the save
time `now`. -/

/-- The `Witness` EmbeddedDocument, recording that a state was observed. -/
structure Witness where
  crawl : Nat
  timestamp : Int
deriving DecidableEq, Repr

/-- The `Patch` EmbeddedDocument, holding one backward delta. -/
structure Patch where
  crawl : Nat
  timestamp : Int
  changes : List JOp
deriving DecidableEq, Repr

/-- A persisted `HistoricDocument`: payload plus version-control lists. -/
structure HDoc where
  payload : Payload
  witnesses : List Witness
  updates : List Patch
deriving DecidableEq, Repr

/-- The store slice for one primary key: the persistent version of the
document, when any. -/
abbrev HStore : Type := Option HDoc

/-- Embeds `history(document, crawl)` from `historic_document.py`.

Returns the updated document together with `new_document`,
`changes_observed` and the generated patch (when any).  The incoming
document is a freshly built one, so only its payload matters; `moduleLoad`
is the class-creation time that every witness's default timestamp was
frozen to, `now` the wall-clock time of the call (used by `Patch`). -/
def history (moduleLoad now : Int) (store : HStore) (docPayload : Payload)
    (crawl : Nat) : HDoc × Bool × Nat × Option Patch :=
  match store with
  | none =>
    -- No persistent version: mark as new, just append the witness.
    (⟨docPayload, [⟨crawl, moduleLoad⟩], []⟩, true, 0, none)
  | some pd =>
    if docPayload = pd.payload then
      -- Payload unchanged: copy the VCI, append only a witness.
      (⟨docPayload, pd.witnesses ++ [⟨crawl, moduleLoad⟩], pd.updates⟩,
        false, 0, none)
    else
      -- Payload changed: diff live -> persistent, append patch and witness.
      let changes := make_patch docPayload pd.payload
      let patch : Patch := ⟨crawl, now, changes⟩
      (⟨docPayload, pd.witnesses ++ [⟨crawl, moduleLoad⟩],
          pd.updates ++ [patch]⟩,
        false, changes.length, some patch)

/-- The constant `CFM_MAX_AGE = timedelta(days=356)`, in seconds. -/
def CFM_MAX_AGE_SECONDS : Int := 356 * 24 * 60 * 60

/-- Embeds `HistoricDocument.bfm_model`. -/
def bfm_model (new_document : Bool) (changes_observed : Nat) : Rat :=
  if new_document then 1
  else if changes_observed = 0 then 0
  else 1

/-- Embeds `HistoricDocument.cfm_model`: reads the last two witness timestamps of
the already-updated document. -/
def cfm_model (witnesses : List Witness) (new_document : Bool)
    (patch : Option Patch) : Rat :=
  if new_document then 1
  else
    match patch with
    | none => 0
    | some _ =>
      let latest : Int := ((witnesses.getLast?).map Witness.timestamp).getD 0
      let previous : Int :=
        (((witnesses.dropLast).getLast?).map Witness.timestamp).getD 0
      min ((latest - previous : Int) / (CFM_MAX_AGE_SECONDS : Rat)) 1

/-- The metric bundle returned by `HistoricDocument.metrics` with the
registered models `[bfm, cfm]`. -/
structure Metrics where
  bfm : Rat
  cfm : Rat
deriving DecidableEq, Repr

/-- Embeds `HistoricDocument.save(crawl)`: run `history`, persist the merged
document, compute the metrics, and return
`(new_document, changes_observed, metrics)`. -/
def save (moduleLoad now : Int) (store : HStore) (docPayload : Payload)
    (crawl : Nat) : HStore × Bool × Nat × Metrics :=
  let (doc, new_document, changes_observed, patch) :=
    history moduleLoad now store docPayload crawl
  (some doc, new_document, changes_observed,
    ⟨bfm_model new_document changes_observed,
      cfm_model doc.witnesses new_document patch⟩)

/-- One save request: payload, crawl id and wall-clock time of the save. -/
structure SaveIn where
  payload : Payload
  crawl : Nat
  now : Int
deriving DecidableEq, Repr

/-- A sequence of saves of the same document key, threaded through the
store. -/
def runSaves (moduleLoad : Int) (store : HStore) : List SaveIn → HStore
  | [] => store
  | s :: rest =>
    runSaves moduleLoad (save moduleLoad s.now store s.payload s.crawl).1 rest

/-- Number of saves in the list that observe a payload different from the
stored one (`cur`), i.e. the saves that generate a patch. -/
def countChanged (cur : Payload) : List SaveIn → Nat
  | [] => 0
  | s :: rest =>
    (if s.payload = cur then 0 else 1) + countChanged s.payload rest

/-- Holds (`true`) iff every save in the list observes a payload different from
its predecessor's (the spec's "every re-observation changed the
payload"). -/
def allChanged (cur : Payload) : List SaveIn → Bool
  | [] => true
  | s :: rest => (decide (s.payload ≠ cur)) && allChanged s.payload rest

/-! ## Spider (`spider.py`)

`Spider.__next__` issues the request task with the current
`parameters_for_next_request` and interprets the returned
`RequestResult`.  The request task is external; a run is embedded against
the list of results the task returns for the successive requests.
Python's `if not request_result.subsequent_kwargs` is falsy both for
`None` and for an empty dict. -/

/-- The fields of `RequestResult` that drive the spider and the stage
processor (`request_result.py`). -/
structure RequestResult where
  subsequent_kwargs : Option (KW String)
  target_not_found : Bool
  gain : Int
  cost : Int
deriving DecidableEq, Repr

/-- Python truthiness of the `subsequent_kwargs` field. -/
def truthyKwargs : Option (KW String) → Bool
  | none => false
  | some l => !l.isEmpty

/-- In-memory spider state.  `self.parameters_for_next_request =
target.kwargs` stores the very dict object of the target (no copy); the
observable consequences of that aliasing are embedded separately below via
an explicit heap (`spiderRunAliased`), while this pure state carries the
dict's current value. -/
structure Spider where
  parameters_for_next_request : KW String
  target_exhausted : Bool
  target_not_found : Bool
deriving DecidableEq, Repr

/-- Embeds `Spider.__init__`. -/
def Spider.init (targetKwargs : KW String) : Spider :=
  ⟨targetKwargs, false, false⟩

/-- The state change performed by one `Spider.__next__` call on the result
returned by the request task: set the flags, then merge
`subsequent_kwargs` right-biased into `parameters_for_next_request` only
when no flag is set. -/
def spiderStep (s : Spider) (r : RequestResult) : Spider :=
  let nf := s.target_not_found || r.target_not_found
  let ex := s.target_exhausted || !truthyKwargs r.subsequent_kwargs
  if !ex && !nf then
    ⟨dictUpdate s.parameters_for_next_request (r.subsequent_kwargs.getD []),
      ex, nf⟩
  else
    ⟨s.parameters_for_next_request, ex, nf⟩

/-- Drive the spider over the successive request results: `__next__`
raises `StopIteration` (yields nothing further) as soon as either flag is
set, otherwise it yields the result and updates the state.  Returns the
yielded results and the final spider state. -/
def spiderRun (s : Spider) : List RequestResult → List RequestResult × Spider
  | [] => ([], s)
  | r :: rs =>
    if !s.target_exhausted && !s.target_not_found then
      let out := spiderRun (spiderStep s r) rs
      (r :: out.1, out.2)
    else ([], s)

/-- A result that sets a termination flag when consumed. -/
def terminating (r : RequestResult) : Bool :=
  r.target_not_found || !truthyKwargs r.subsequent_kwargs

/-- The results a fresh spider consumes (and yields) from a result
sequence: everything up to and including the first terminating result. -/
def consumedResults : List RequestResult → List RequestResult
  | [] => []
  | r :: rs => r :: (if terminating r then [] else consumedResults rs)

/-! ### Aliasing of `target.kwargs` (`Spider.__init__` / `__next__`)

`self.parameters_for_next_request = target.kwargs` binds the spider's
field to the same dict object as the target's `kwargs` attribute, and
`self.parameters_for_next_request.update(**...)` mutates that object in
place.  Embedded with an explicit heap of dict objects addressed by
index: the target holds a reference, `Spider.__init__` copies the
reference (not the dict), and each merge writes through it. -/

/-- Heap of Python dict objects, addressed by allocation index. -/
abbrev Heap : Type := List (KW String)

/-- A `SlimTarget` as seen from the spider: its `kwargs` attribute is a
reference into the heap. -/
structure TargetRef where
  kwargsRef : Nat
deriving DecidableEq, Repr

/-- Spider state when the heap is explicit: `parameters_for_next_request`
holds the reference obtained from `target.kwargs`. -/
structure SpiderRef where
  paramsRef : Nat
  target_exhausted : Bool
  target_not_found : Bool
deriving DecidableEq, Repr

/-- Embeds `Spider.__init__` with the heap explicit: the reference is copied,
the dict is not. -/
def SpiderRef.init (target : TargetRef) : SpiderRef :=
  ⟨target.kwargsRef, false, false⟩

/-- In-place `dict.update` through a reference. -/
def heapUpdate (h : Heap) (i : Nat) (kw : KW String) : Heap :=
  h.set i (dictUpdate (h.getD i []) kw)

/-- One `Spider.__next__` with the heap explicit. -/
def spiderStepAliased (h : Heap) (s : SpiderRef) (r : RequestResult) :
    Heap × SpiderRef :=
  let nf := s.target_not_found || r.target_not_found
  let ex := s.target_exhausted || !truthyKwargs r.subsequent_kwargs
  if !ex && !nf then
    (heapUpdate h s.paramsRef (r.subsequent_kwargs.getD []),
      ⟨s.paramsRef, ex, nf⟩)
  else (h, ⟨s.paramsRef, ex, nf⟩)

/-- Full spider iteration with the heap explicit. -/
def spiderRunAliased (h : Heap) (s : SpiderRef) :
    List RequestResult → Heap × SpiderRef
  | [] => (h, s)
  | r :: rs =>
    if !s.target_exhausted && !s.target_not_found then
      let out := spiderStepAliased h s r
      spiderRunAliased out.1 out.2 rs
    else (h, s)

/-- The subsequent-kwargs merges a fresh spider performs: one per
consumed non-terminating result. -/
def mergedKwargs (rs : List RequestResult) : List (KW String) :=
  ((consumedResults rs).filter (fun r => !terminating r)).map
    (fun r => r.subsequent_kwargs.getD [])

/-! ## SlimTarget (`slim_target.py`) -/

/-- Transport projection of a target: `{id?, tags, kwargs}`. -/
structure SlimTarget where
  id : Option String
  tags : List String
  kwargs : KW String
deriving DecidableEq, Repr

/-- Embeds `SlimTarget.merge(a, b)`: raises `ValueError` when both ids are
present and unequal; otherwise keeps `a.id` when present else `b.id`,
unions the tag lists as sets (`list(set(a.tags + b.tags))`, embedded
canonically via `dedup`), and merges `kwargs` right-biased
(`a.kwargs.copy()` then `.update(b.kwargs)`). -/
def SlimTarget.merge (a b : SlimTarget) : Except Unit SlimTarget :=
  if a.id.isSome && b.id.isSome && a.id ≠ b.id then
    Except.error ()
  else
    Except.ok
      ⟨if a.id.isSome then a.id else b.id,
        (a.tags ++ b.tags).dedup,
        dictUpdate a.kwargs b.kwargs⟩

/-! ## Terminators and the stage-processor loop
(`static_terminator.py`, `overlap_terminator.py`, `stage_processor.py`)

Both terminators read the data-storage pipeline's statistics out of
`stage.progress.pipeline_results`; the two counters they consult are
embedded as a record. -/

/-- The `statistics` entries of the data-storage pipeline's
`PipelineResult` that the terminators read. -/
structure StorageStats where
  processed_documents : Int
  new_documents : Int
deriving DecidableEq, Repr

/-- Embeds `static_terminator(stage, limit)`. -/
def static_terminator (stats : StorageStats) (limit : Int) : Nat :=
  if stats.processed_documents ≥ limit then 1 else 0

/-- Embeds `overlap_terminator(stage, overlap)`. -/
def overlap_terminator (stats : StorageStats) (overlap : Int) : Nat :=
  if stats.processed_documents - stats.new_documents ≥ overlap then 1
  else 0

/-- Embeds `StageProcessor.__execute_terminators`: run every terminator of the
stage on the current progress and set `terminated_by[name] = True` for
each one that returns a truthy value. -/
def executeTerminators (terms : List (String × (StorageStats → Nat)))
    (stats : StorageStats) (tb : List (String × Bool)) :
    List (String × Bool) :=
  terms.foldl
    (fun acc t => if t.2 stats ≠ 0 then acc ++ [(t.1, true)] else acc) tb

/-- Embeds `StageProcessor.process`, restricted to what the termination logic
sees: per step the aggregated storage statistics are updated, the
progress is yielded, the terminators run, and the loop breaks as soon as
any `terminated_by` value is `True`.  `steps` carries the aggregated
statistics visible after each pipeline step; the function returns how
many steps were yielded and the final `terminated_by` map. -/
def stageLoop (terms : List (String × (StorageStats → Nat)))
    (tb : List (String × Bool)) :
    List StorageStats → Nat × List (String × Bool)
  | [] => (0, tb)
  | stats :: rest =>
    let tb2 := executeTerminators terms stats tb
    if tb2.any (fun p => p.2) then (1, tb2)
    else
      let out := stageLoop terms tb2 rest
      (out.1 + 1, out.2)

/-! ## Target discovery pipeline (`target_discovery_pipeline.py`)

The pipeline extracts candidate target kwargs from the result documents,
deduplicates them (`{tuple(d.items())}`), pairs them with the
`target_defaults`, filters out the kwargs already present in the store,
bulk-inserts the rest, and swallows any `BulkWriteError`.  The store is
external; its unique-index bulk insert is embedded MongoDB-style: ordered
`insert_many`, which inserts documents one by one and aborts with a
bulk-write error at the first uniqueness collision.  The store may change
between the existence check and the insert (the concurrent-discovery
race), so the two snapshots are separate parameters. -/

/-- Ordered unique-index bulk insert: returns the store after the insert
together with the `BulkWriteError` flag.  Documents after the first
colliding one are not inserted. -/
def insertMany (db : List (KW String)) :
    List (KW String) → List (KW String) × Bool
  | [] => (db, false)
  | t :: ts => if t ∈ db then (db, true) else insertMany (db ++ [t]) ts

/-- The kwargs lists found under `target_field` across the (batch of)
result documents, concatenated (`targets_kwargs`), before dedup.  Each
entry of the outer list is one raw document's `target_field` content:
`none` when absent or not a list. -/
def extractTargetsKwargs (docs : List (Option (List (KW String)))) :
    List (KW String) :=
  docs.foldl (fun acc d => acc ++ d.getD []) []

/-- The merged kwargs of the candidate targets: for every
`(target_kwargs, target_default)` product pair, the default's `kwargs`
updated right-biased with the discovered kwargs.  (Only the `kwargs`
identity of the new `Target` matters to the claim; the defaults are
embedded by their `kwargs` field.) -/
def mergedCandidates (targets_kwargs : List (KW String))
    (target_defaults : List (KW String)) : List (KW String) :=
  (targets_kwargs.product target_defaults).map
    (fun p => dictUpdate p.2 p.1)

/-- The `targets` list the pipeline builds: candidates whose kwargs were
absent from the store at check time. -/
def discoveredTargets (checkDB : List (KW String))
    (docs : List (Option (List (KW String))))
    (target_defaults : List (KW String)) : List (KW String) :=
  (mergedCandidates (extractTargetsKwargs docs).dedup target_defaults).filter
    (fun t => decide (t ∉ checkDB))

/-- Embeds `target_discovery_pipeline`: `checkDB` is the store at the time of the
per-candidate existence check, `insertDB` the store at insert time.
Returns the store after the insert and the reported statistics
`(new_targets, checked_targets)`.  The `BulkWriteError` branch is
`pass`. -/
def target_discovery_pipeline (checkDB insertDB : List (KW String))
    (docs : List (Option (List (KW String))))
    (target_defaults : List (KW String)) :
    List (KW String) × Nat × Nat :=
  let targets := discoveredTargets checkDB docs target_defaults
  let afterInsert :=
    if targets.isEmpty then (insertDB, false) else insertMany insertDB targets
  -- `except BulkWriteError: pass` — the error flag is dropped here.
  (afterInsert.1,
    targets.length,
    (extractTargetsKwargs docs).dedup.length * target_defaults.length)

/-! ## Pipeline results and `combine_dicts_by_addition`
(`pipeline_result.py`, `utils/pipeline.py`)

The values stored under statistics/metrics keys are `None`, numbers, or
nested dicts; dicts are embedded in canonical key-sorted form (Python
dict equality ignores insertion order).  `combine_dicts_by_addition`
iterates over the union of the key sets; on shared keys it recurses for
two dicts, drops the key for two `None`s, takes `i[key] or j[key]`
(Python truthiness) when exactly one side is `None`, and otherwise falls
back to `+` — which raises `TypeError` for a number/dict mismatch,
embedded as `Except.error`. -/

mutual
/-- A statistics/metrics value: `None`, a number, or a nested dict. -/
inductive V where
  | vnone : V
  | vnum : Rat → V
  | vdict : Dct → V
deriving DecidableEq, Repr

/-- A statistics/metrics dict in canonical key-sorted form. -/
inductive Dct where
  | dnil : Dct
  | dcons : String → V → Dct → Dct
deriving DecidableEq, Repr
end

/-- Python truthiness of a value (`None`, `0` and `{}` are falsy). -/
def truthyV : V → Bool
  | V.vnone => false
  | V.vnum a => decide (a ≠ 0)
  | V.vdict Dct.dnil => false
  | V.vdict (Dct.dcons _ _ _) => true

mutual
/-- The value stored for a key present in both dicts: `Except.ok none`
means the key is dropped (the both-`None` `pass` branch),
`Except.ok (some v)` that `v` is stored, `Except.error` a `TypeError`
from `+`.  The match arms mirror the branch order of the Python code. -/
def ckey : V → V → Except Unit (Option V)
  | V.vdict d1, V.vdict d2 =>
    match combineD d1 d2 with
    | Except.ok e => Except.ok (some (V.vdict e))
    | Except.error u => Except.error u
  | V.vnone, V.vnone => Except.ok none
  | V.vnone, y => Except.ok (some y)
  | x, V.vnone => Except.ok (some (if truthyV x then x else V.vnone))
  | V.vnum a, V.vnum b => Except.ok (some (V.vnum (a + b)))
  | _, _ => Except.error ()
  termination_by a b => sizeOf a + sizeOf b

/-- Embeds `combine_dicts_by_addition` on two (non-`None`) dicts: a key-sorted
merge over the union of the key sets, combining shared keys with
`ckey`. -/
def combineD : Dct → Dct → Except Unit Dct
  | Dct.dnil, j => Except.ok j
  | Dct.dcons k1 v1 t1, Dct.dnil => Except.ok (Dct.dcons k1 v1 t1)
  | Dct.dcons k1 v1 t1, Dct.dcons k2 v2 t2 =>
    if k1 < k2 then
      match combineD t1 (Dct.dcons k2 v2 t2) with
      | Except.ok e => Except.ok (Dct.dcons k1 v1 e)
      | Except.error u => Except.error u
    else if k2 < k1 then
      match combineD (Dct.dcons k1 v1 t1) t2 with
      | Except.ok e => Except.ok (Dct.dcons k2 v2 e)
      | Except.error u => Except.error u
    else
      match ckey v1 v2, combineD t1 t2 with
      | Except.ok (some v), Except.ok e => Except.ok (Dct.dcons k1 v e)
      | Except.ok none, Except.ok e => Except.ok e
      | Except.error u, _ => Except.error u
      | _, Except.error u => Except.error u
  termination_by i j => sizeOf i + sizeOf j
end

/-- Embeds `combine_dicts_by_addition(i, j)` including its `None` handling. -/
def combine_dicts_by_addition :
    Option Dct → Option Dct → Except Unit (Option Dct)
  | none, none => Except.ok none
  | none, some j => Except.ok (some j)
  | some i, none => Except.ok (some i)
  | some i, some j =>
    match combineD i j with
    | Except.ok e => Except.ok (some e)
    | Except.error u => Except.error u

/-- The `PipelineResult` dataclass (`pipeline_result.py`). -/
structure PipelineResult where
  weight : Option Int
  statistics : Option Dct
  metrics : Option Dct
deriving DecidableEq, Repr

/-- Python truthiness of the `weight` field. -/
def truthyW : Option Int → Bool
  | none => false
  | some a => decide (a ≠ 0)

/-- Embeds `PipelineResult.__add__`: combine statistics and metrics with
`combine_dicts_by_addition`; the weight is
`(self.weight or 0) + (other.weight or 0)` when
`self.weight or other.weight` is truthy, else `None`. -/
def PipelineResult.add (p q : PipelineResult) : Except Unit PipelineResult :=
  match combine_dicts_by_addition p.statistics q.statistics,
      combine_dicts_by_addition p.metrics q.metrics with
  | Except.ok s, Except.ok m =>
    Except.ok
      ⟨if truthyW p.weight || truthyW q.weight then
          some (p.weight.getD 0 + q.weight.getD 0)
        else none, s, m⟩
  | Except.error u, _ => Except.error u
  | _, Except.error u => Except.error u

/-- Embeds `PipelineResult.__radd__`: `None + self = self`, otherwise fall back
to `__add__`. -/
def PipelineResult.radd (self : PipelineResult)
    (other : Option PipelineResult) : Except Unit PipelineResult :=
  match other with
  | none => Except.ok self
  | some o => self.add o

/-- Lookup in a statistics/metrics dict. -/
def dlook (k : String) : Dct → Option V
  | Dct.dnil => none
  | Dct.dcons k2 v t => if k = k2 then some v else dlook k t

/-- Holds when `k` is strictly below every key of the dict. -/
def keyLtD (k : String) : Dct → Bool
  | Dct.dnil => true
  | Dct.dcons k2 _ t => decide (k < k2) && keyLtD k t

mutual
/-- Every dict nested inside the value is in canonical sorted form. -/
def sortedV : V → Bool
  | V.vnone => true
  | V.vnum _ => true
  | V.vdict d => sortedD d

/-- The dict and every dict nested in its values are key-sorted. -/
def sortedD : Dct → Bool
  | Dct.dnil => true
  | Dct.dcons k v t => keyLtD k t && sortedV v && sortedD t
end

mutual
/-- No `None` occurs in the value (at any nesting depth). -/
def noneFreeV : V → Bool
  | V.vnone => false
  | V.vnum _ => true
  | V.vdict d => noneFreeD d

/-- No `None` occurs among the dict's values (at any nesting depth). -/
def noneFreeD : Dct → Bool
  | Dct.dnil => true
  | Dct.dcons _ v t => noneFreeV v && noneFreeD t
end

mutual
/-- The two values can be combined without a `TypeError`: numbers go
with numbers, dicts with dicts (recursively on shared keys). -/
def compatV : V → V → Bool
  | V.vnum _, V.vnum _ => true
  | V.vdict d1, V.vdict d2 => compatD d1 d2
  | _, _ => false
  termination_by a b => sizeOf a + sizeOf b

/-- All keys shared by the two (sorted) dicts carry compatible values. -/
def compatD : Dct → Dct → Bool
  | Dct.dnil, _ => true
  | Dct.dcons _ _ _, Dct.dnil => true
  | Dct.dcons k1 v1 t1, Dct.dcons k2 v2 t2 =>
    if k1 < k2 then compatD t1 (Dct.dcons k2 v2 t2)
    else if k2 < k1 then compatD (Dct.dcons k1 v1 t1) t2
    else compatV v1 v2 && compatD t1 t2
  termination_by i j => sizeOf i + sizeOf j
end

/-- The combined value for a shared key, under the well-formedness that
rules out drops and errors (total projection of `ckey`; the fallback
`vnone` is unreachable there). -/
def ckeyVal (a b : V) : V :=
  match ckey a b with
  | Except.ok (some c) => c
  | _ => V.vnone

/-- Per-key combination lifted to optional values: the key set of the
merge is the union, shared keys combine with `ckeyVal`. -/
def optCombine : Option V → Option V → Option V
  | none, x => x
  | some a, none => some a
  | some a, some b => some (ckeyVal a b)

/-- A well-formed weight: absent or non-negative. -/
def weightOK : Option Int → Bool
  | none => true
  | some w => decide (0 ≤ w)

/-- A well-formed optional statistics/metrics dict: absent, or sorted
and `None`-free. -/
def wfOD : Option Dct → Bool
  | none => true
  | some d => noneFreeD d && sortedD d

/-- Structural compatibility of two optional dicts. -/
def compatOD : Option Dct → Option Dct → Bool
  | some d1, some d2 => compatD d1 d2
  | _, _ => true

/-- Well-formed `PipelineResult`: weight absent or non-negative,
statistics and metrics absent or sorted and `None`-free. -/
def wfPR (p : PipelineResult) : Bool :=
  weightOK p.weight && wfOD p.statistics && wfOD p.metrics

/-- The statistics and metrics of the two results are structurally
compatible (no number/dict mismatch on any shared key). -/
def compatPR (p q : PipelineResult) : Bool :=
  compatOD p.statistics q.statistics && compatOD p.metrics q.metrics

/-! # Theorems -/

/-! ## Sorted flat dictionaries -/

theorem flookup_eq_none_of_lt {α : Type} (k : String) (l : KW α)
    (h : ∀ p ∈ l, k < p.1) : flookup k l = none := by
  induction l with
  | nil => rfl
  | cons p t ih =>
    have hk : k < p.1 := h p (List.mem_cons_self p t)
    have hne : k ≠ p.1 := ne_of_lt hk
    simp only [flookup, if_neg hne]
    exact ih (fun q hq => h q (List.mem_cons_of_mem p hq))

theorem sortedK_cons {α : Type} {p : String × α} {t : KW α} :
    SortedK (p :: t) ↔ (∀ q ∈ t, p.1 < q.1) ∧ SortedK t := by
  simp [SortedK, List.pairwise_cons]

theorem dictUpdate_nil_left {α : Type} (b : KW α) : dictUpdate [] b = b := by
  simp [dictUpdate]

theorem dictUpdate_nil_right {α : Type} (a : KW α) : dictUpdate a [] = a := by
  cases a with
  | nil => simp [dictUpdate]
  | cons p t => simp [dictUpdate]

theorem dictUpdate_cons_cons {α : Type} (k1 : String) (v1 : α) (t1 : KW α)
    (k2 : String) (v2 : α) (t2 : KW α) :
    dictUpdate ((k1, v1) :: t1) ((k2, v2) :: t2) =
      if k1 < k2 then (k1, v1) :: dictUpdate t1 ((k2, v2) :: t2)
      else if k2 < k1 then (k2, v2) :: dictUpdate ((k1, v1) :: t1) t2
      else (k2, v2) :: dictUpdate t1 t2 := by
  rw [dictUpdate]

theorem keys_dictUpdate_subset {α : Type} :
    ∀ (a b : KW α) (q : String × α), q ∈ dictUpdate a b →
      (∃ p ∈ a, p.1 = q.1) ∨ (∃ p ∈ b, p.1 = q.1) := by
  intro a b
  induction a, b using dictUpdate.induct with
  | case1 b =>
    intro q hq
    rw [dictUpdate_nil_left] at hq
    exact Or.inr ⟨q, hq, rfl⟩
  | case2 a h =>
    intro q hq
    rw [dictUpdate_nil_right] at hq
    exact Or.inl ⟨q, hq, rfl⟩
  | case3 k1 v1 t1 k2 v2 t2 hlt ih =>
    intro q hq
    rw [dictUpdate_cons_cons, if_pos hlt] at hq
    rcases List.mem_cons.mp hq with rfl | hq2
    · exact Or.inl ⟨(k1, v1), List.mem_cons_self _ _, rfl⟩
    · rcases ih q hq2 with ⟨p, hp, hpe⟩ | ⟨p, hp, hpe⟩
      · exact Or.inl ⟨p, List.mem_cons_of_mem _ hp, hpe⟩
      · exact Or.inr ⟨p, hp, hpe⟩
  | case4 k1 v1 t1 k2 v2 t2 hlt hgt ih =>
    intro q hq
    rw [dictUpdate_cons_cons, if_neg hlt, if_pos hgt] at hq
    rcases List.mem_cons.mp hq with rfl | hq2
    · exact Or.inr ⟨(k2, v2), List.mem_cons_self _ _, rfl⟩
    · rcases ih q hq2 with ⟨p, hp, hpe⟩ | ⟨p, hp, hpe⟩
      · exact Or.inl ⟨p, hp, hpe⟩
      · exact Or.inr ⟨p, List.mem_cons_of_mem _ hp, hpe⟩
  | case5 k1 v1 t1 k2 v2 t2 hlt hgt ih =>
    intro q hq
    rw [dictUpdate_cons_cons, if_neg hlt, if_neg hgt] at hq
    rcases List.mem_cons.mp hq with rfl | hq2
    · exact Or.inr ⟨(k2, v2), List.mem_cons_self _ _, rfl⟩
    · rcases ih q hq2 with ⟨p, hp, hpe⟩ | ⟨p, hp, hpe⟩
      · exact Or.inl ⟨p, List.mem_cons_of_mem _ hp, hpe⟩
      · exact Or.inr ⟨p, List.mem_cons_of_mem _ hp, hpe⟩

theorem dictUpdate_sorted {α : Type} :
    ∀ (a b : KW α), SortedK a → SortedK b → SortedK (dictUpdate a b) := by
  intro a b
  induction a, b using dictUpdate.induct with
  | case1 b =>
    intro _ hb
    rwa [dictUpdate_nil_left]
  | case2 a h =>
    intro ha _
    rwa [dictUpdate_nil_right]
  | case3 k1 v1 t1 k2 v2 t2 hlt ih =>
    intro ha hb
    rw [dictUpdate_cons_cons, if_pos hlt]
    have ha2 := sortedK_cons.mp ha
    refine sortedK_cons.mpr ⟨?_, ih ha2.2 hb⟩
    intro q hq
    rcases keys_dictUpdate_subset _ _ q hq with ⟨p, hp, hpe⟩ | ⟨p, hp, hpe⟩
    · rw [← hpe]
      exact ha2.1 p hp
    · rw [← hpe]
      rcases List.mem_cons.mp hp with rfl | hp2
      · exact hlt
      · exact lt_trans hlt ((sortedK_cons.mp hb).1 p hp2)
  | case4 k1 v1 t1 k2 v2 t2 hlt hgt ih =>
    intro ha hb
    rw [dictUpdate_cons_cons, if_neg hlt, if_pos hgt]
    have hb2 := sortedK_cons.mp hb
    refine sortedK_cons.mpr ⟨?_, ih ha hb2.2⟩
    intro q hq
    rcases keys_dictUpdate_subset _ _ q hq with ⟨p, hp, hpe⟩ | ⟨p, hp, hpe⟩
    · rw [← hpe]
      rcases List.mem_cons.mp hp with rfl | hp2
      · exact hgt
      · exact lt_trans hgt ((sortedK_cons.mp ha).1 p hp2)
    · rw [← hpe]
      exact hb2.1 p hp
  | case5 k1 v1 t1 k2 v2 t2 hlt hgt ih =>
    intro ha hb
    rw [dictUpdate_cons_cons, if_neg hlt, if_neg hgt]
    have heq : k1 = k2 := le_antisymm (not_lt.mp hgt) (not_lt.mp hlt)
    have ha2 := sortedK_cons.mp ha
    have hb2 := sortedK_cons.mp hb
    refine sortedK_cons.mpr ⟨?_, ih ha2.2 hb2.2⟩
    intro q hq
    rcases keys_dictUpdate_subset _ _ q hq with ⟨p, hp, hpe⟩ | ⟨p, hp, hpe⟩
    · rw [← hpe, ← heq]
      exact ha2.1 p hp
    · rw [← hpe]
      exact hb2.1 p hp

theorem flookup_dictUpdate_of_some {α : Type} :
    ∀ (a b : KW α), SortedK b → ∀ (k : String) (v : α),
      flookup k b = some v → flookup k (dictUpdate a b) = some v := by
  intro a b
  induction a, b using dictUpdate.induct with
  | case1 b =>
    intro _ k v hkb
    rwa [dictUpdate_nil_left]
  | case2 a h =>
    intro _ k v hkb
    simp [flookup] at hkb
  | case3 k1 v1 t1 k2 v2 t2 hlt ih =>
    intro hb k v hkb
    rw [dictUpdate_cons_cons, if_pos hlt]
    have hkne : k ≠ k1 := by
      intro hk1
      subst hk1
      have hnone : flookup k ((k2, v2) :: t2) = none := by
        apply flookup_eq_none_of_lt
        intro p hp
        rcases List.mem_cons.mp hp with rfl | hp2
        · exact hlt
        · exact lt_trans hlt ((sortedK_cons.mp hb).1 p hp2)
      rw [hkb] at hnone
      cases hnone
    simp only [flookup, if_neg hkne]
    exact ih hb k v hkb
  | case4 k1 v1 t1 k2 v2 t2 hlt hgt ih =>
    intro hb k v hkb
    rw [dictUpdate_cons_cons, if_neg hlt, if_pos hgt]
    simp only [flookup] at hkb ⊢
    by_cases hk : k = k2
    · rwa [if_pos hk] at hkb ⊢
    · rw [if_neg hk] at hkb ⊢
      exact ih (sortedK_cons.mp hb).2 k v hkb
  | case5 k1 v1 t1 k2 v2 t2 hlt hgt ih =>
    intro hb k v hkb
    rw [dictUpdate_cons_cons, if_neg hlt, if_neg hgt]
    simp only [flookup] at hkb ⊢
    by_cases hk : k = k2
    · rwa [if_pos hk] at hkb ⊢
    · rw [if_neg hk] at hkb ⊢
      exact ih (sortedK_cons.mp hb).2 k v hkb

theorem flookup_dictUpdate_of_none {α : Type} :
    ∀ (a b : KW α) (k : String),
      flookup k b = none → flookup k (dictUpdate a b) = flookup k a := by
  intro a b
  induction a, b using dictUpdate.induct with
  | case1 b =>
    intro k hkb
    rw [dictUpdate_nil_left, hkb]
    rfl
  | case2 a h =>
    intro k _
    rw [dictUpdate_nil_right]
  | case3 k1 v1 t1 k2 v2 t2 hlt ih =>
    intro k hkb
    rw [dictUpdate_cons_cons, if_pos hlt]
    simp only [flookup]
    by_cases hk : k = k1
    · rw [if_pos hk, if_pos hk]
    · rw [if_neg hk, if_neg hk]
      exact ih k hkb
  | case4 k1 v1 t1 k2 v2 t2 hlt hgt ih =>
    intro k hkb
    rw [dictUpdate_cons_cons, if_neg hlt, if_pos hgt]
    simp only [flookup] at hkb ⊢
    by_cases hk : k = k2
    · rw [if_pos hk] at hkb
      cases hkb
    · rw [if_neg hk] at hkb ⊢
      exact ih k hkb
  | case5 k1 v1 t1 k2 v2 t2 hlt hgt ih =>
    intro k hkb
    have heq : k1 = k2 := le_antisymm (not_lt.mp hgt) (not_lt.mp hlt)
    rw [dictUpdate_cons_cons, if_neg hlt, if_neg hgt]
    simp only [flookup] at hkb ⊢
    by_cases hk : k = k2
    · rw [if_pos hk] at hkb
      cases hkb
    · rw [if_neg hk] at hkb ⊢
      rw [if_neg (heq ▸ hk)]
      exact ih k hkb

theorem dictUpdate_self {α : Type} :
    ∀ (a : KW α), SortedK a → dictUpdate a a = a := by
  intro a
  induction a with
  | nil =>
    intro _
    exact dictUpdate_nil_left []
  | cons p t ih =>
    intro ha
    obtain ⟨k, v⟩ := p
    rw [dictUpdate_cons_cons, if_neg (lt_irrefl k), if_neg (lt_irrefl k)]
    rw [ih (sortedK_cons.mp ha).2]

/-! ## Round trip of `make_patch` / `applyPatch` -/

theorem make_patch_nil_nil : make_patch [] [] = [] := by
  rw [make_patch]

theorem make_patch_nil_cons (k2 v2 : String) (t2 : Payload) :
    make_patch [] ((k2, v2) :: t2) = JOp.add k2 v2 :: make_patch [] t2 := by
  rw [make_patch]

theorem make_patch_cons_nil (k1 v1 : String) (t1 : Payload) :
    make_patch ((k1, v1) :: t1) [] = JOp.remove k1 :: make_patch t1 [] := by
  rw [make_patch]

theorem make_patch_cons_cons (k1 v1 : String) (t1 : Payload)
    (k2 v2 : String) (t2 : Payload) :
    make_patch ((k1, v1) :: t1) ((k2, v2) :: t2) =
      if k1 < k2 then JOp.remove k1 :: make_patch t1 ((k2, v2) :: t2)
      else if k2 < k1 then JOp.add k2 v2 :: make_patch ((k1, v1) :: t1) t2
      else if v1 = v2 then make_patch t1 t2
      else JOp.replace k1 v2 :: make_patch t1 t2 := by
  rw [make_patch]

theorem applyPatch_nil (p : Payload) : applyPatch [] p = p := rfl

theorem applyPatch_cons (op : JOp) (ops : List JOp) (p : Payload) :
    applyPatch (op :: ops) p = applyPatch ops (applyOp p op) := rfl

theorem applyOp_cons_frame (k v : String) (p : Payload) (op : JOp)
    (h : k < opKey op) :
    applyOp ((k, v) :: p) op = (k, v) :: applyOp p op := by
  cases op with
  | replace k2 v2 =>
    simp only [opKey] at h
    simp only [applyOp, setKey]
    rw [if_neg (asymm h), if_pos h]
  | add k2 v2 =>
    simp only [opKey] at h
    simp only [applyOp, setKey]
    rw [if_neg (asymm h), if_pos h]
  | remove k2 =>
    simp only [opKey] at h
    simp only [applyOp, delKey]
    rw [if_neg (ne_of_gt h)]

theorem applyPatch_cons_frame (k v : String) (ops : List JOp) :
    (∀ op ∈ ops, k < opKey op) → ∀ p : Payload,
      applyPatch ops ((k, v) :: p) = (k, v) :: applyPatch ops p := by
  induction ops with
  | nil =>
    intro _ p
    rfl
  | cons op rest ih =>
    intro h p
    rw [applyPatch_cons, applyPatch_cons,
      applyOp_cons_frame k v p op (h op (List.mem_cons_self _ _))]
    exact ih (fun o ho => h o (List.mem_cons_of_mem _ ho)) (applyOp p op)

theorem make_patch_opKey_lt (x : String) :
    ∀ n o : Payload, (∀ p ∈ n, x < p.1) → (∀ p ∈ o, x < p.1) →
      ∀ op ∈ make_patch n o, x < opKey op := by
  intro n o
  induction n, o using make_patch.induct with
  | case1 =>
    intro _ _ op hop
    rw [make_patch_nil_nil] at hop
    cases hop
  | case2 k2 v2 t2 ih =>
    intro hn ho op hop
    rw [make_patch_nil_cons] at hop
    rcases List.mem_cons.mp hop with rfl | hop2
    · exact ho (k2, v2) (List.mem_cons_self _ _)
    · exact ih hn (fun p hp => ho p (List.mem_cons_of_mem _ hp)) op hop2
  | case3 k1 v1 t1 ih =>
    intro hn ho op hop
    rw [make_patch_cons_nil] at hop
    rcases List.mem_cons.mp hop with rfl | hop2
    · exact hn (k1, v1) (List.mem_cons_self _ _)
    · exact ih (fun p hp => hn p (List.mem_cons_of_mem _ hp)) ho op hop2
  | case4 k1 v1 t1 k2 v2 t2 hlt ih =>
    intro hn ho op hop
    rw [make_patch_cons_cons, if_pos hlt] at hop
    rcases List.mem_cons.mp hop with rfl | hop2
    · exact hn (k1, v1) (List.mem_cons_self _ _)
    · exact ih (fun p hp => hn p (List.mem_cons_of_mem _ hp)) ho op hop2
  | case5 k1 v1 t1 k2 v2 t2 hlt hgt ih =>
    intro hn ho op hop
    rw [make_patch_cons_cons, if_neg hlt, if_pos hgt] at hop
    rcases List.mem_cons.mp hop with rfl | hop2
    · exact ho (k2, v2) (List.mem_cons_self _ _)
    · exact ih hn (fun p hp => ho p (List.mem_cons_of_mem _ hp)) op hop2
  | case6 k1 t1 k2 v2 t2 hlt hgt ih =>
    intro hn ho op hop
    rw [make_patch_cons_cons, if_neg hlt, if_neg hgt, if_pos rfl] at hop
    exact ih (fun p hp => hn p (List.mem_cons_of_mem _ hp))
      (fun p hp => ho p (List.mem_cons_of_mem _ hp)) op hop
  | case7 k1 v1 t1 k2 v2 t2 hlt hgt hne ih =>
    intro hn ho op hop
    rw [make_patch_cons_cons, if_neg hlt, if_neg hgt, if_neg hne] at hop
    rcases List.mem_cons.mp hop with rfl | hop2
    · exact hn (k1, v1) (List.mem_cons_self _ _)
    · exact ih (fun p hp => hn p (List.mem_cons_of_mem _ hp))
        (fun p hp => ho p (List.mem_cons_of_mem _ hp)) op hop2

theorem applyPatch_make_patch :
    ∀ n o : Payload, SortedK n → SortedK o →
      applyPatch (make_patch n o) n = o := by
  intro n o
  induction n, o using make_patch.induct with
  | case1 =>
    intro _ _
    rw [make_patch_nil_nil, applyPatch_nil]
  | case2 k2 v2 t2 ih =>
    intro hn ho
    have ho2 := sortedK_cons.mp ho
    rw [make_patch_nil_cons, applyPatch_cons]
    have hset : applyOp [] (JOp.add k2 v2) = [(k2, v2)] := rfl
    rw [hset]
    have hframe : applyPatch (make_patch [] t2) ((k2, v2) :: []) =
        (k2, v2) :: applyPatch (make_patch [] t2) [] := by
      apply applyPatch_cons_frame
      apply make_patch_opKey_lt
      · intro p hp
        cases hp
      · intro p hp
        exact ho2.1 p hp
    rw [hframe, ih List.Pairwise.nil ho2.2]
  | case3 k1 v1 t1 ih =>
    intro hn _
    have hn2 := sortedK_cons.mp hn
    rw [make_patch_cons_nil, applyPatch_cons]
    have hdel : applyOp ((k1, v1) :: t1) (JOp.remove k1) = t1 := by
      simp [applyOp, delKey]
    rw [hdel, ih hn2.2 List.Pairwise.nil]
  | case4 k1 v1 t1 k2 v2 t2 hlt ih =>
    intro hn ho
    have hn2 := sortedK_cons.mp hn
    rw [make_patch_cons_cons, if_pos hlt, applyPatch_cons]
    have hdel : applyOp ((k1, v1) :: t1) (JOp.remove k1) = t1 := by
      simp [applyOp, delKey]
    rw [hdel, ih hn2.2 ho]
  | case5 k1 v1 t1 k2 v2 t2 hlt hgt ih =>
    intro hn ho
    have hn2 := sortedK_cons.mp hn
    have ho2 := sortedK_cons.mp ho
    rw [make_patch_cons_cons, if_neg hlt, if_pos hgt, applyPatch_cons]
    have hset : applyOp ((k1, v1) :: t1) (JOp.add k2 v2) =
        (k2, v2) :: (k1, v1) :: t1 := by
      simp only [applyOp, setKey]
      rw [if_pos hgt]
    rw [hset]
    have hframe : applyPatch (make_patch ((k1, v1) :: t1) t2)
        ((k2, v2) :: (k1, v1) :: t1) =
        (k2, v2) :: applyPatch (make_patch ((k1, v1) :: t1) t2)
          ((k1, v1) :: t1) := by
      apply applyPatch_cons_frame
      apply make_patch_opKey_lt
      · intro p hp
        rcases List.mem_cons.mp hp with rfl | hp2
        · exact hgt
        · exact lt_trans hgt (hn2.1 p hp2)
      · intro p hp
        exact ho2.1 p hp
    rw [hframe, ih hn ho2.2]
  | case6 k1 t1 k2 v2 t2 hlt hgt ih =>
    intro hn ho
    have heq : k1 = k2 := le_antisymm (not_lt.mp hgt) (not_lt.mp hlt)
    have hn2 := sortedK_cons.mp hn
    have ho2 := sortedK_cons.mp ho
    rw [make_patch_cons_cons, if_neg hlt, if_neg hgt, if_pos rfl]
    have hframe : applyPatch (make_patch t1 t2) ((k1, v2) :: t1) =
        (k1, v2) :: applyPatch (make_patch t1 t2) t1 := by
      apply applyPatch_cons_frame
      apply make_patch_opKey_lt
      · intro p hp
        exact hn2.1 p hp
      · intro p hp
        rw [heq]
        exact ho2.1 p hp
    rw [hframe, ih hn2.2 ho2.2, heq]
  | case7 k1 v1 t1 k2 v2 t2 hlt hgt hne ih =>
    intro hn ho
    have heq : k1 = k2 := le_antisymm (not_lt.mp hgt) (not_lt.mp hlt)
    have hn2 := sortedK_cons.mp hn
    have ho2 := sortedK_cons.mp ho
    rw [make_patch_cons_cons, if_neg hlt, if_neg hgt, if_neg hne,
      applyPatch_cons]
    have hset : applyOp ((k1, v1) :: t1) (JOp.replace k1 v2) =
        (k1, v2) :: t1 := by
      simp only [applyOp, setKey]
      rw [if_neg (lt_irrefl k1), if_neg (lt_irrefl k1)]
    rw [hset]
    have hframe : applyPatch (make_patch t1 t2) ((k1, v2) :: t1) =
        (k1, v2) :: applyPatch (make_patch t1 t2) t1 := by
      apply applyPatch_cons_frame
      apply make_patch_opKey_lt
      · intro p hp
        exact hn2.1 p hp
      · intro p hp
        rw [heq]
        exact ho2.1 p hp
    rw [hframe, ih hn2.2 ho2.2, heq]

theorem make_patch_eq_nil_iff :
    ∀ n o : Payload, make_patch n o = [] → n = o := by
  intro n o
  induction n, o using make_patch.induct with
  | case1 =>
    intro _
    rfl
  | case2 k2 v2 t2 ih =>
    intro h
    rw [make_patch_nil_cons] at h
    cases h
  | case3 k1 v1 t1 ih =>
    intro h
    rw [make_patch_cons_nil] at h
    cases h
  | case4 k1 v1 t1 k2 v2 t2 hlt ih =>
    intro h
    rw [make_patch_cons_cons, if_pos hlt] at h
    cases h
  | case5 k1 v1 t1 k2 v2 t2 hlt hgt ih =>
    intro h
    rw [make_patch_cons_cons, if_neg hlt, if_pos hgt] at h
    cases h
  | case6 k1 t1 k2 v2 t2 hlt hgt ih =>
    intro h
    rw [make_patch_cons_cons, if_neg hlt, if_neg hgt, if_pos rfl] at h
    have heq : k1 = k2 := le_antisymm (not_lt.mp hgt) (not_lt.mp hlt)
    rw [heq, ih h]
  | case7 k1 v1 t1 k2 v2 t2 hlt hgt hne ih =>
    intro h
    rw [make_patch_cons_cons, if_neg hlt, if_neg hgt, if_neg hne] at h
    cases h

/-! ## Historic document claims -/

/-- C2: saving a document whose primary key is absent from the store
returns `(new_document = true, changes_observed = 0, {bfm: 1, cfm: 1})`,
and the stored document afterwards holds exactly one witness and no
updates (a witness but no patch). -/
theorem save_first_observation (moduleLoad now : Int) (p : Payload)
    (c : Nat) :
    save moduleLoad now none p c =
      (some ⟨p, [⟨c, moduleLoad⟩], []⟩, true, 0, ⟨1, 1⟩) := by
  simp [save, history, bfm_model, cfm_model]

theorem runSaves_cons (mL : Int) (st : HStore) (s : SaveIn)
    (rest : List SaveIn) :
    runSaves mL st (s :: rest) =
      runSaves mL (save mL s.now st s.payload s.crawl).1 rest := rfl

theorem save_some_unchanged (mL now : Int) (d0 : HDoc) (p : Payload)
    (c : Nat) (h : p = d0.payload) :
    (save mL now (some d0) p c).1 =
      some ⟨p, d0.witnesses ++ [⟨c, mL⟩], d0.updates⟩ := by
  simp [save, history, h]

theorem save_some_changed (mL now : Int) (d0 : HDoc) (p : Payload)
    (c : Nat) (h : ¬p = d0.payload) :
    (save mL now (some d0) p c).1 =
      some ⟨p, d0.witnesses ++ [⟨c, mL⟩],
        d0.updates ++ [⟨c, now, make_patch p d0.payload⟩]⟩ := by
  simp [save, history, h]

theorem runSaves_some_spec (mL : Int) :
    ∀ (ins : List SaveIn) (d0 : HDoc),
      ∃ d : HDoc, runSaves mL (some d0) ins = some d ∧
        d.witnesses.length = d0.witnesses.length + ins.length ∧
        d.updates.length = d0.updates.length + countChanged d0.payload ins := by
  intro ins
  induction ins with
  | nil =>
    intro d0
    exact ⟨d0, rfl, by simp, by simp [countChanged]⟩
  | cons s rest ih =>
    intro d0
    by_cases hch : s.payload = d0.payload
    · obtain ⟨d, hd, hw, hu⟩ :=
        ih ⟨s.payload, d0.witnesses ++ [⟨s.crawl, mL⟩], d0.updates⟩
      refine ⟨d, ?_, ?_, ?_⟩
      · rw [runSaves_cons, save_some_unchanged mL s.now d0 s.payload s.crawl hch]
        exact hd
      · simp only [List.length_append, List.length_singleton] at hw
        rw [hw]
        simp only [List.length_cons]
        omega
      · rw [hu]
        show d0.updates.length + countChanged s.payload rest =
          d0.updates.length + countChanged d0.payload (s :: rest)
        rw [countChanged, if_pos hch]
        omega
    · obtain ⟨d, hd, hw, hu⟩ :=
        ih ⟨s.payload, d0.witnesses ++ [⟨s.crawl, mL⟩],
          d0.updates ++ [⟨s.crawl, s.now, make_patch s.payload d0.payload⟩]⟩
      refine ⟨d, ?_, ?_, ?_⟩
      · rw [runSaves_cons, save_some_changed mL s.now d0 s.payload s.crawl hch]
        exact hd
      · simp only [List.length_append, List.length_singleton] at hw
        rw [hw]
        simp [List.length_cons]
        omega
      · rw [hu]
        dsimp only
        simp only [countChanged, if_neg hch, List.length_append,
          List.length_singleton]
        omega

theorem countChanged_le (cur : Payload) :
    ∀ l : List SaveIn, countChanged cur l ≤ l.length := by
  intro l
  induction l generalizing cur with
  | nil => simp [countChanged]
  | cons s rest ih =>
    simp only [countChanged, List.length_cons]
    have := ih s.payload
    split <;> omega

theorem countChanged_eq_length_iff (cur : Payload) :
    ∀ l : List SaveIn,
      (countChanged cur l = l.length ↔ allChanged cur l = true) := by
  intro l
  induction l generalizing cur with
  | nil => simp [countChanged, allChanged]
  | cons s rest ih =>
    simp only [countChanged, allChanged, List.length_cons,
      Bool.and_eq_true, decide_eq_true_eq]
    constructor
    · intro h
      by_cases hch : s.payload = cur
      · rw [if_pos hch] at h
        have := countChanged_le s.payload rest
        omega
      · rw [if_neg hch] at h
        exact ⟨hch, (ih s.payload).mp (by omega)⟩
    · intro ⟨hne, hall⟩
      rw [if_neg hne, (ih s.payload).mpr hall]
      omega

/-- C3: after the first save the witness list is non-empty; every save
appends exactly one witness, so after `n` saves there are `n` witnesses;
`updates.length ≤ witnesses.length − 1`; and
`updates.length + 1 = witnesses.length` holds exactly when every
re-observation changed the payload. -/
theorem historic_document_invariants (mL : Int) (s0 : SaveIn)
    (rest : List SaveIn) :
    (∃ d : HDoc, runSaves mL none (s0 :: rest) = some d ∧
      d.witnesses ≠ [] ∧
      d.witnesses.length = (s0 :: rest).length ∧
      d.updates.length ≤ d.witnesses.length - 1 ∧
      (d.updates.length + 1 = d.witnesses.length ↔
        allChanged s0.payload rest = true)) ∧
    (∀ (d0 : HDoc) (p : Payload) (c : Nat) (now : Int),
      ∃ d2 : HDoc, (save mL now (some d0) p c).1 = some d2 ∧
        d2.witnesses.length = d0.witnesses.length + 1) ∧
    (∀ (p : Payload) (c : Nat) (now : Int),
      ∃ d2 : HDoc, (save mL now none p c).1 = some d2 ∧
        d2.witnesses.length = 1) := by
  refine ⟨?_, ?_, ?_⟩
  · have hfirst : (save mL s0.now none s0.payload s0.crawl).1 =
        some ⟨s0.payload, [⟨s0.crawl, mL⟩], []⟩ := by
      simp [save, history]
    obtain ⟨d, hd, hw, hu⟩ :=
      runSaves_some_spec mL rest ⟨s0.payload, [⟨s0.crawl, mL⟩], []⟩
    have hrun : runSaves mL none (s0 :: rest) = some d := by
      rw [runSaves_cons, hfirst]
      exact hd
    simp only [List.length_singleton, List.length_nil] at hw hu
    refine ⟨d, hrun, ?_, ?_, ?_, ?_⟩
    · intro hnil
      rw [hnil] at hw
      simp only [List.length_nil] at hw
      omega
    · rw [hw]
      simp only [List.length_cons]
      omega
    · rw [hw, hu]
      have := countChanged_le s0.payload rest
      omega
    · rw [hw, hu]
      have hle := countChanged_le s0.payload rest
      rw [← countChanged_eq_length_iff s0.payload rest]
      omega
  · intro d0 p c now
    by_cases hch : p = d0.payload
    · refine ⟨_, save_some_unchanged mL now d0 p c hch, ?_⟩
      simp
    · refine ⟨_, save_some_changed mL now d0 p c hch, ?_⟩
      simp
  · intro p c now
    refine ⟨⟨p, [⟨c, mL⟩], []⟩, ?_, ?_⟩
    · simp [save, history]
    · simp

/-- C1 counterexample: after three saves with three distinct payloads,
`updates` holds two patches and `updates[0]` is the patch generated by the
*first* change — applying it to the current payload yields the oldest
state, not the previous one — while the patch for the most recent change
sits at the *end* of `updates`.  The patch list is appended to, not
prepended. -/
theorem historic_updates_prepend_counterexample :
    ∃ d : HDoc,
      runSaves 0 none
        [⟨[("title", "X")], 1, 100⟩, ⟨[("title", "Y")], 2, 200⟩,
          ⟨[("title", "Z")], 3, 300⟩] = some d ∧
      d.payload = [("title", "Z")] ∧
      d.updates.length = 2 ∧
      (d.updates.head?.map Patch.changes) = some [JOp.replace "title" "X"] ∧
      applyPatch [JOp.replace "title" "X"] [("title", "Z")] ≠
        [("title", "Y")] ∧
      (d.updates.getLast?.map Patch.changes) =
        some [JOp.replace "title" "Y"] ∧
      applyPatch [JOp.replace "title" "Y"] [("title", "Z")] =
        [("title", "Y")] := by
  refine ⟨⟨[("title", "Z")],
    [⟨1, 0⟩, ⟨2, 0⟩, ⟨3, 0⟩],
    [⟨2, 200, [JOp.replace "title" "X"]⟩,
      ⟨3, 300, [JOp.replace "title" "Y"]⟩]⟩, ?_, ?_, ?_, ?_, ?_, ?_, ?_⟩ <;>
    simp [runSaves, save, history, make_patch, applyPatch, applyOp,
      setKey, delKey]

/-- C1 (amended): when the persisted predecessor exists and its payload
differs from the incoming one, `history` marks the document as not new,
generates the patch by diffing new → old — so that applying its changes
to the current payload reconstructs the previous payload — stamps it with
the crawl and the save time, and **appends** it to `updates`: after the
save the patch for the most recent change is the *last* element of
`updates`, and `changes_observed` is positive. -/
theorem save_changed_appends_backward_patch (mL now : Int) (pd : HDoc)
    (p : Payload) (c : Nat) (hne : p ≠ pd.payload)
    (hsp : SortedK p) (hso : SortedK pd.payload) :
    ∃ patch : Patch,
      patch = ⟨c, now, make_patch p pd.payload⟩ ∧
      history mL now (some pd) p c =
        (⟨p, pd.witnesses ++ [⟨c, mL⟩], pd.updates ++ [patch]⟩, false,
          patch.changes.length, some patch) ∧
      (save mL now (some pd) p c).1 =
        some ⟨p, pd.witnesses ++ [⟨c, mL⟩], pd.updates ++ [patch]⟩ ∧
      applyPatch patch.changes p = pd.payload ∧
      0 < patch.changes.length ∧
      (pd.updates ++ [patch]).getLast? = some patch := by
  refine ⟨⟨c, now, make_patch p pd.payload⟩, rfl, ?_, ?_, ?_, ?_, ?_⟩
  · simp [history, hne]
  · simp [save, history, hne]
  · exact applyPatch_make_patch p pd.payload hsp hso
  · rcases h : make_patch p pd.payload with _ | ⟨op, ops⟩
    · exact absurd (make_patch_eq_nil_iff p pd.payload h) hne
    · simp
  · exact List.getLast?_append_cons pd.updates _ []

theorem save_changed_appends_backward_patch_witness :
    ∃ patch : Patch,
      patch = ⟨2, 200, make_patch [("title", "Y")] [("title", "X")]⟩ ∧
      history 0 200 (some ⟨[("title", "X")], [⟨1, 0⟩], []⟩)
          [("title", "Y")] 2 =
        (⟨[("title", "Y")], [⟨1, 0⟩] ++ [⟨2, 0⟩], [] ++ [patch]⟩, false,
          patch.changes.length, some patch) ∧
      (save 0 200 (some ⟨[("title", "X")], [⟨1, 0⟩], []⟩)
          [("title", "Y")] 2).1 =
        some ⟨[("title", "Y")], [⟨1, 0⟩] ++ [⟨2, 0⟩], [] ++ [patch]⟩ ∧
      applyPatch patch.changes [("title", "Y")] = [("title", "X")] ∧
      0 < patch.changes.length ∧
      (([] : List Patch) ++ [patch]).getLast? = some patch :=
  save_changed_appends_backward_patch 0 200 ⟨[("title", "X")], [⟨1, 0⟩], []⟩
    [("title", "Y")] 2 (by decide) (by simp [SortedK]) (by simp [SortedK])

/-- C5: the code freezes the witness timestamp default at class-creation
time (`DateTimeField(default=datetime.utcnow())` — called once), so every
witness appended by `history` carries the module-load time `moduleLoad`,
never the save time: two saves performed at different times (100 and 200)
still record two *equal* witness timestamps. -/
theorem witness_timestamps_frozen_at_module_load :
    (∀ (mL now : Int) (st : HStore) (p : Payload) (c : Nat),
      ((history mL now st p c).1).witnesses.getLast? =
        some ⟨c, mL⟩) ∧
    (∃ d : HDoc,
      runSaves 0 none
        [⟨[("t", "X")], 1, 100⟩, ⟨[("t", "X")], 2, 200⟩] = some d ∧
      d.witnesses.map Witness.timestamp = [0, 0] ∧
      (100 : Int) ≠ 200) := by
  constructor
  · intro mL now st p c
    match st with
    | none => rfl
    | some pd =>
      by_cases h : p = pd.payload
      · simp only [history, if_pos h]
        exact List.getLast?_append_cons pd.witnesses _ []
      · simp only [history, if_neg h]
        exact List.getLast?_append_cons pd.witnesses _ []
  · refine ⟨⟨[("t", "X")], [⟨1, 0⟩, ⟨2, 0⟩], []⟩, ?_, ?_, ?_⟩ <;> decide

/-! ## Spider claims -/

theorem spiderRun_stopped (s : Spider) (rs : List RequestResult)
    (h : s.target_exhausted = true ∨ s.target_not_found = true) :
    spiderRun s rs = ([], s) := by
  cases rs with
  | nil => rfl
  | cons r rest =>
    have hc : (!s.target_exhausted && !s.target_not_found) = false := by
      rcases h with h | h <;> simp [h]
    simp [spiderRun, hc]

theorem spiderRun_clean (rs : List RequestResult) :
    ∀ kw : KW String,
      spiderRun ⟨kw, false, false⟩ rs =
        (consumedResults rs,
          ⟨((consumedResults rs).filter (fun r => !terminating r)).foldl
              (fun k r => dictUpdate k (r.subsequent_kwargs.getD [])) kw,
            (consumedResults rs).any
              (fun r => !truthyKwargs r.subsequent_kwargs),
            (consumedResults rs).any (fun r => r.target_not_found)⟩) := by
  induction rs with
  | nil =>
    intro kw
    rfl
  | cons r rest ih =>
    intro kw
    by_cases hnf : r.target_not_found
    · have hstop := spiderRun_stopped
        ⟨kw, !truthyKwargs r.subsequent_kwargs, true⟩ rest (Or.inr rfl)
      simp [spiderRun, spiderStep, consumedResults, terminating, hnf, hstop]
    · by_cases htr : truthyKwargs r.subsequent_kwargs
      · simp [spiderRun, spiderStep, consumedResults, terminating, hnf, htr,
          ih (dictUpdate kw (r.subsequent_kwargs.getD []))]
      · have hstop := spiderRun_stopped
          ⟨kw, true, false⟩ rest (Or.inl rfl)
        simp [spiderRun, spiderStep, consumedResults, terminating, hnf, htr,
          hstop]

theorem consumedResults_dropLast_not_terminating :
    ∀ rs : List RequestResult, ∀ r ∈ (consumedResults rs).dropLast,
      terminating r = false := by
  intro rs
  induction rs with
  | nil =>
    intro r hr
    cases hr
  | cons q rest ih =>
    intro r hr
    by_cases hq : terminating q
    · simp [consumedResults, hq] at hr
    · simp only [consumedResults] at hr
      rw [if_neg (by simp [hq])] at hr
      rcases hc : consumedResults rest with _ | ⟨c, cs⟩
      · rw [hc] at hr
        cases hr
      · rw [hc, List.dropLast_cons_of_ne_nil (by simp)] at hr
        rcases List.mem_cons.mp hr with rfl | hr2
        · simp only [Bool.not_eq_true] at hq
          exact hq
        · rw [← hc] at hr2
          exact ih r hr2

theorem consumedResults_first_terminating :
    ∀ (pre : List RequestResult) (r : RequestResult)
      (post : List RequestResult),
      (∀ q ∈ pre, terminating q = false) → terminating r = true →
      consumedResults (pre ++ r :: post) = pre ++ [r] := by
  intro pre
  induction pre with
  | nil =>
    intro r post _ hr
    simp [consumedResults, hr]
  | cons q qs ih =>
    intro r post hpre hr
    have hq : terminating q = false := hpre q (List.mem_cons_self _ _)
    simp only [List.cons_append, consumedResults]
    rw [if_neg (by simp [hq])]
    simp only [List.append_eq]
    rw [ih r post (fun x hx => hpre x (List.mem_cons_of_mem _ hx)) hr]

/-- C7: a spider yields exactly the prefix of the request results up to
and including the first one that is not-found or lacks (truthy)
`subsequent_kwargs` — that final result is still yielded and nothing is
yielded after it; the termination flags are set exactly when such a
result was consumed; and the continuation parameters are the right-biased
`dict.update` folds of the `subsequent_kwargs` of the consumed
non-terminating results. -/
theorem spider_iteration_protocol (targetKwargs : KW String)
    (rs : List RequestResult) :
    spiderRun (Spider.init targetKwargs) rs =
      (consumedResults rs,
        ⟨((consumedResults rs).filter (fun r => !terminating r)).foldl
            (fun k r => dictUpdate k (r.subsequent_kwargs.getD []))
            targetKwargs,
          (consumedResults rs).any
            (fun r => !truthyKwargs r.subsequent_kwargs),
          (consumedResults rs).any (fun r => r.target_not_found)⟩) ∧
    (∀ r ∈ (consumedResults rs).dropLast, terminating r = false) ∧
    (∀ (pre : List RequestResult) (r : RequestResult)
        (post : List RequestResult),
      rs = pre ++ r :: post → (∀ q ∈ pre, terminating q = false) →
      terminating r = true →
      (spiderRun (Spider.init targetKwargs) rs).1 = pre ++ [r]) := by
  have hinit : Spider.init targetKwargs =
      (⟨targetKwargs, false, false⟩ : Spider) := rfl
  refine ⟨?_, ?_, ?_⟩
  · rw [hinit]
    exact spiderRun_clean rs targetKwargs
  · exact consumedResults_dropLast_not_terminating rs
  · intro pre r post hrs hpre hr
    rw [hinit, spiderRun_clean rs targetKwargs]
    simp only []
    rw [hrs]
    exact consumedResults_first_terminating pre r post hpre hr

theorem list_set_getD_self {α : Type} :
    ∀ (l : List α) (i : Nat) (d : α), i < l.length →
      l.set i (l[i]?.getD d) = l := by
  intro l
  induction l with
  | nil =>
    intro i d hi
    simp at hi
  | cons x t ih =>
    intro i d hi
    cases i with
    | zero => simp
    | succ j =>
      simp only [List.length_cons] at hi
      simp only [List.getElem?_cons_succ, List.set_cons_succ]
      rw [ih j d (by omega)]

theorem list_getD_set_self {α : Type} :
    ∀ (l : List α) (i : Nat) (a d : α), i < l.length →
      (l.set i a)[i]?.getD d = a := by
  intro l
  induction l with
  | nil =>
    intro i a d hi
    simp at hi
  | cons x t ih =>
    intro i a d hi
    cases i with
    | zero => simp
    | succ j =>
      simp only [List.length_cons] at hi
      simp only [List.set_cons_succ, List.getElem?_cons_succ]
      exact ih j a d (by omega)

theorem list_set_set {α : Type} :
    ∀ (l : List α) (i : Nat) (a b : α), (l.set i a).set i b = l.set i b := by
  intro l
  induction l with
  | nil =>
    intro i a b
    rfl
  | cons x t ih =>
    intro i a b
    cases i with
    | zero => rfl
    | succ j =>
      simp only [List.set_cons_succ]
      rw [ih j a b]

theorem spiderRunAliased_stopped (h : Heap) (s : SpiderRef)
    (rs : List RequestResult)
    (hst : s.target_exhausted = true ∨ s.target_not_found = true) :
    spiderRunAliased h s rs = (h, s) := by
  cases rs with
  | nil => rfl
  | cons r rest =>
    have hc : (!s.target_exhausted && !s.target_not_found) = false := by
      rcases hst with hx | hx <;> simp [hx]
    simp [spiderRunAliased, hc]

theorem spiderRunAliased_clean (rs : List RequestResult) :
    ∀ (h : Heap) (i : Nat), i < h.length →
      spiderRunAliased h ⟨i, false, false⟩ rs =
        (h.set i
          (((consumedResults rs).filter (fun r => !terminating r)).foldl
            (fun k r => dictUpdate k (r.subsequent_kwargs.getD []))
            (h.getD i [])),
          ⟨i,
            (consumedResults rs).any
              (fun r => !truthyKwargs r.subsequent_kwargs),
            (consumedResults rs).any (fun r => r.target_not_found)⟩) := by
  induction rs with
  | nil =>
    intro h i hi
    simp only [List.getD_eq_getElem?_getD]
    simp [spiderRunAliased, consumedResults, list_set_getD_self h i [] hi]
  | cons r rest ih =>
    intro h i hi
    simp only [List.getD_eq_getElem?_getD]
    by_cases hnf : r.target_not_found
    · have hstop := spiderRunAliased_stopped h
        ⟨i, !truthyKwargs r.subsequent_kwargs, true⟩ rest (Or.inr rfl)
      simp [spiderRunAliased, spiderStepAliased, consumedResults,
        terminating, hnf, hstop, list_set_getD_self h i [] hi]
    · by_cases htr : truthyKwargs r.subsequent_kwargs
      · have hlen : i <
            (heapUpdate h i (r.subsequent_kwargs.getD [])).length := by
          simp [heapUpdate, hi]
        have hrec := ih (heapUpdate h i (r.subsequent_kwargs.getD [])) i hlen
        have hget : (heapUpdate h i
              (r.subsequent_kwargs.getD []))[i]?.getD ([] : KW String) =
            dictUpdate (h[i]?.getD []) (r.subsequent_kwargs.getD []) := by
          simp only [heapUpdate, List.getD_eq_getElem?_getD]
          exact list_getD_set_self h i _ [] hi
        have hset : ∀ x : KW String,
            (heapUpdate h i (r.subsequent_kwargs.getD [])).set i x =
              h.set i x := by
          intro x
          simp only [heapUpdate]
          exact list_set_set h i _ x
        simp only [List.getD_eq_getElem?_getD] at hrec
        simp [spiderRunAliased, spiderStepAliased, consumedResults,
          terminating, hnf, htr, hrec, hget, hset]
      · have hstop := spiderRunAliased_stopped h ⟨i, true, false⟩ rest
          (Or.inl rfl)
        simp [spiderRunAliased, spiderStepAliased, consumedResults,
          terminating, hnf, htr, hstop, list_set_getD_self h i [] hi]

/-- C10: `Spider.__init__` stores the reference held in `target.kwargs`
itself (no copy) as `parameters_for_next_request`, so every right-biased
merge performed in `Spider.__next__` writes through that shared
reference: after the iteration, the heap cell `target.kwargs` points to
holds the original identity kwargs updated with every consumed
`subsequent_kwargs` — not only the original kwargs — and the rest of the
heap is untouched. -/
theorem spider_aliases_target_kwargs (h : Heap) (t : TargetRef)
    (rs : List RequestResult) (hlt : t.kwargsRef < h.length) :
    (SpiderRef.init t).paramsRef = t.kwargsRef ∧
    spiderRunAliased h (SpiderRef.init t) rs =
      (h.set t.kwargsRef
        (((consumedResults rs).filter (fun r => !terminating r)).foldl
          (fun k r => dictUpdate k (r.subsequent_kwargs.getD []))
          (h.getD t.kwargsRef [])),
        ⟨t.kwargsRef,
          (consumedResults rs).any
            (fun r => !truthyKwargs r.subsequent_kwargs),
          (consumedResults rs).any (fun r => r.target_not_found)⟩) :=
  ⟨rfl, spiderRunAliased_clean rs h t.kwargsRef hlt⟩

theorem spider_aliases_target_kwargs_witness :
    (SpiderRef.init ⟨0⟩).paramsRef = (0 : Nat) ∧
    spiderRunAliased [[("a", "1")]] (SpiderRef.init ⟨0⟩)
        [⟨some [("p", "2")], false, 1, 1⟩, ⟨none, false, 1, 1⟩] =
      ([[("a", "1")]].set 0
        (((consumedResults
            [⟨some [("p", "2")], false, 1, 1⟩,
              ⟨none, false, 1, 1⟩]).filter (fun r => !terminating r)).foldl
          (fun k r => dictUpdate k (r.subsequent_kwargs.getD []))
          ([[("a", "1")]].getD 0 [])),
        ⟨0,
          (consumedResults
            [⟨some [("p", "2")], false, 1, 1⟩, ⟨none, false, 1, 1⟩]).any
            (fun r => !truthyKwargs r.subsequent_kwargs),
          (consumedResults
            [⟨some [("p", "2")], false, 1, 1⟩, ⟨none, false, 1, 1⟩]).any
            (fun r => r.target_not_found)⟩) :=
  spider_aliases_target_kwargs [[("a", "1")]] ⟨0⟩
    [⟨some [("p", "2")], false, 1, 1⟩, ⟨none, false, 1, 1⟩] (by decide)

/-! ## SlimTarget claims -/

/-- C8: `SlimTarget.merge` is idempotent for `a = b` up to SlimTarget
equivalence (same id, same tag set, same kwargs — exactly equal in
canonical form); on shared kwargs keys the value of `b` wins while keys
only in `a` keep `a`'s value; the merged tags are the set union of both
tag lists; and when both ids are present they must match, otherwise merge
raises `ValueError`. -/
theorem slim_target_merge_laws (a b : SlimTarget)
    (hsa : SortedK a.kwargs) (hsb : SortedK b.kwargs) :
    (∃ m : SlimTarget, SlimTarget.merge a a = Except.ok m ∧
      m.id = a.id ∧ (∀ t, t ∈ m.tags ↔ t ∈ a.tags) ∧
      m.kwargs = a.kwargs) ∧
    (∀ m : SlimTarget, SlimTarget.merge a b = Except.ok m →
      (∀ (k : String) (v : String), flookup k b.kwargs = some v →
        flookup k m.kwargs = some v) ∧
      (∀ k : String, flookup k b.kwargs = none →
        flookup k m.kwargs = flookup k a.kwargs) ∧
      (∀ t, t ∈ m.tags ↔ t ∈ a.tags ∨ t ∈ b.tags)) ∧
    (∀ ia ib : String, a.id = some ia → b.id = some ib → ia ≠ ib →
      SlimTarget.merge a b = Except.error ()) := by
  refine ⟨?_, ?_, ?_⟩
  · refine ⟨⟨a.id, (a.tags ++ a.tags).dedup, dictUpdate a.kwargs a.kwargs⟩,
      ?_, ?_, ?_, ?_⟩
    · simp only [SlimTarget.merge]
      rw [if_neg (by simp)]
      cases ha : a.id <;> simp [ha]
    · cases ha : a.id <;> simp [ha]
    · intro t
      simp [List.mem_dedup]
    · exact dictUpdate_self a.kwargs hsa
  · intro m hm
    simp only [SlimTarget.merge] at hm
    by_cases hid : a.id.isSome && b.id.isSome && a.id ≠ b.id
    · rw [if_pos hid] at hm
      cases hm
    · rw [if_neg hid] at hm
      have hm2 : m = ⟨if a.id.isSome then a.id else b.id,
          (a.tags ++ b.tags).dedup, dictUpdate a.kwargs b.kwargs⟩ := by
        cases hm
        rfl
      subst hm2
      refine ⟨?_, ?_, ?_⟩
      · intro k v hkv
        exact flookup_dictUpdate_of_some a.kwargs b.kwargs hsb k v hkv
      · intro k hk
        exact flookup_dictUpdate_of_none a.kwargs b.kwargs k hk
      · intro t
        simp [List.mem_dedup]
  · intro ia ib hia hib hne
    simp only [SlimTarget.merge]
    rw [if_pos]
    simp [hia, hib, hne]

theorem slim_target_merge_laws_witness :
    (∃ m : SlimTarget,
      SlimTarget.merge ⟨some "t1", ["x"], [("a", "1")]⟩
          ⟨some "t1", ["x"], [("a", "1")]⟩ = Except.ok m ∧
      m.id = (⟨some "t1", ["x"], [("a", "1")]⟩ : SlimTarget).id ∧
      (∀ t, t ∈ m.tags ↔
        t ∈ (⟨some "t1", ["x"], [("a", "1")]⟩ : SlimTarget).tags) ∧
      m.kwargs = (⟨some "t1", ["x"], [("a", "1")]⟩ : SlimTarget).kwargs) ∧
    (∀ m : SlimTarget,
      SlimTarget.merge ⟨some "t1", ["x"], [("a", "1")]⟩
          ⟨some "t1", ["y"], [("a", "2")]⟩ = Except.ok m →
      (∀ (k : String) (v : String),
        flookup k (⟨some "t1", ["y"], [("a", "2")]⟩ : SlimTarget).kwargs =
          some v → flookup k m.kwargs = some v) ∧
      (∀ k : String,
        flookup k (⟨some "t1", ["y"], [("a", "2")]⟩ : SlimTarget).kwargs =
          none →
        flookup k m.kwargs =
          flookup k (⟨some "t1", ["x"], [("a", "1")]⟩ : SlimTarget).kwargs) ∧
      (∀ t, t ∈ m.tags ↔
        t ∈ (⟨some "t1", ["x"], [("a", "1")]⟩ : SlimTarget).tags ∨
        t ∈ (⟨some "t1", ["y"], [("a", "2")]⟩ : SlimTarget).tags)) ∧
    (∀ ia ib : String,
      (⟨some "t1", ["x"], [("a", "1")]⟩ : SlimTarget).id = some ia →
      (⟨some "t1", ["y"], [("a", "2")]⟩ : SlimTarget).id = some ib →
      ia ≠ ib →
      SlimTarget.merge ⟨some "t1", ["x"], [("a", "1")]⟩
        ⟨some "t1", ["y"], [("a", "2")]⟩ = Except.error ()) :=
  slim_target_merge_laws ⟨some "t1", ["x"], [("a", "1")]⟩
    ⟨some "t1", ["y"], [("a", "2")]⟩ (by simp [SortedK]) (by simp [SortedK])

/-! ## Terminator claims -/

/-- C9: the static terminator returns 1 iff
`processed_documents ≥ limit` (else 0), the overlap terminator returns 1
iff `processed_documents − new_documents ≥ overlap` (else 0); and in a
stage configured with `Static(limit=5)` and `Overlap(overlap=3)`, a step
whose aggregated statistics are `processed_documents = 6,
new_documents = 3` fires both predicates: `terminated_by` records both
keys as `true` and the stage loop exits after that step (exactly one step
is yielded), whatever statistics later steps would have shown. -/
theorem terminator_predicates_and_loop :
    (∀ (stats : StorageStats) (limit : Int),
      (static_terminator stats limit = 1 ↔
        limit ≤ stats.processed_documents) ∧
      (static_terminator stats limit = 0 ↔
        ¬limit ≤ stats.processed_documents)) ∧
    (∀ (stats : StorageStats) (overlap : Int),
      (overlap_terminator stats overlap = 1 ↔
        overlap ≤ stats.processed_documents - stats.new_documents) ∧
      (overlap_terminator stats overlap = 0 ↔
        ¬overlap ≤ stats.processed_documents - stats.new_documents)) ∧
    (∀ rest : List StorageStats,
      stageLoop
        [("static", fun s => static_terminator s 5),
          ("overlap", fun s => overlap_terminator s 3)] []
        (⟨6, 3⟩ :: rest) =
      (1, [("static", true), ("overlap", true)])) := by
  refine ⟨?_, ?_, ?_⟩
  · intro stats limit
    constructor
    · simp only [static_terminator]
      split <;> simp_all
    · simp only [static_terminator]
      split <;> simp_all
  · intro stats overlap
    constructor
    · simp only [overlap_terminator]
      split <;> simp_all
    · simp only [overlap_terminator]
      split <;> simp_all
  · intro rest
    have hterm : executeTerminators
        [("static", fun s => static_terminator s 5),
          ("overlap", fun s => overlap_terminator s 3)]
        ⟨6, 3⟩ [] = [("static", true), ("overlap", true)] := by
      simp [executeTerminators, static_terminator, overlap_terminator]
    simp [stageLoop, hterm]

/-! ## Target discovery claims -/

/-- C6 counterexample: store contains `{app_id:p, lang:en}` at insert
time (a concurrent worker won the race after our check), and the result
also discovered the fresh `{app_id:q, lang:en}`.  The ordered bulk
insert collides on the first target, the pipeline swallows the
`BulkWriteError` without any per-target `force_insert`: the non-colliding
discovery `q` is lost (not inserted), and the reported statistics are
`new_targets = 2` even though zero targets were inserted — contradicting
both "the discoveries not involved in the collision are still inserted"
and "`new_targets` = number inserted". -/
theorem target_discovery_swallows_bulk_error_counterexample :
    target_discovery_pipeline [] [[("app_id", "p"), ("lang", "en")]]
        [some [[("app_id", "p"), ("lang", "en")],
          [("app_id", "q"), ("lang", "en")]]] [[]] =
      ([[("app_id", "p"), ("lang", "en")]], 2, 2) ∧
    [("app_id", "q"), ("lang", "en")] ∉
      (target_discovery_pipeline [] [[("app_id", "p"), ("lang", "en")]]
        [some [[("app_id", "p"), ("lang", "en")],
          [("app_id", "q"), ("lang", "en")]]] [[]]).1 := by
  have heval : target_discovery_pipeline [] [[("app_id", "p"), ("lang", "en")]]
      [some [[("app_id", "p"), ("lang", "en")],
        [("app_id", "q"), ("lang", "en")]]] [[]] =
      ([[("app_id", "p"), ("lang", "en")]], 2, 2) := by
    simp [target_discovery_pipeline, discoveredTargets, mergedCandidates,
      extractTargetsKwargs, insertMany, List.product, dictUpdate_nil_left,
      List.dedup]
  refine ⟨heval, ?_⟩
  rw [heval]
  decide

/-- C6 (amended): on a bulk-write uniqueness violation the pipeline
swallows the exception (`except BulkWriteError: pass`) — there is no
per-target `force_insert` fallback, and an ordered bulk insert aborted by
a collision on its first document inserts nothing at all, losing also the
non-colliding discoveries; the reported statistics are
`new_targets` = number of candidates that passed the check-time absence
filter and `checked_targets` = |deduplicated adjacent kwargs| ×
|defaults|, independent of how many targets the insert actually
managed to write. -/
theorem target_discovery_error_swallowed :
    (∀ (checkDB dbA dbB : List (KW String))
        (docs : List (Option (List (KW String))))
        (defaults : List (KW String)),
      (target_discovery_pipeline checkDB dbA docs defaults).2 =
        (target_discovery_pipeline checkDB dbB docs defaults).2) ∧
    (∀ (checkDB db : List (KW String))
        (docs : List (Option (List (KW String))))
        (defaults : List (KW String)) (t : KW String) (ts : List (KW String)),
      discoveredTargets checkDB docs defaults = t :: ts → t ∈ db →
      (target_discovery_pipeline checkDB db docs defaults).1 = db) ∧
    (∀ (checkDB db : List (KW String))
        (docs : List (Option (List (KW String))))
        (defaults : List (KW String)),
      (target_discovery_pipeline checkDB db docs defaults).2 =
        ((discoveredTargets checkDB docs defaults).length,
          (extractTargetsKwargs docs).dedup.length * defaults.length)) := by
  refine ⟨?_, ?_, ?_⟩
  · intro checkDB dbA dbB docs defaults
    rfl
  · intro checkDB db docs defaults t ts hts htdb
    simp only [target_discovery_pipeline, hts]
    rw [if_neg (by simp)]
    simp only [insertMany, if_pos htdb]
  · intro checkDB db docs defaults
    rfl

/-! ## Pipeline-result addition: structural helpers -/

theorem noneFreeD_cons (k : String) (v : V) (t : Dct) :
    noneFreeD (Dct.dcons k v t) = (noneFreeV v && noneFreeD t) := by
  simp [noneFreeD]

theorem noneFreeV_dict (d : Dct) : noneFreeV (V.vdict d) = noneFreeD d := by
  simp [noneFreeV]

theorem sortedD_cons (k : String) (v : V) (t : Dct) :
    sortedD (Dct.dcons k v t) =
      (keyLtD k t && sortedV v && sortedD t) := by
  simp [sortedD]

theorem sortedV_dict (d : Dct) : sortedV (V.vdict d) = sortedD d := by
  simp [sortedV]

theorem keyLtD_cons (x k : String) (v : V) (t : Dct) :
    keyLtD x (Dct.dcons k v t) = (decide (x < k) && keyLtD x t) := by
  simp [keyLtD]

theorem compatV_dict (d1 d2 : Dct) :
    compatV (V.vdict d1) (V.vdict d2) = compatD d1 d2 := by
  simp [compatV]

theorem compatD_cons_cons (k1 : String) (v1 : V) (t1 : Dct) (k2 : String)
    (v2 : V) (t2 : Dct) :
    compatD (Dct.dcons k1 v1 t1) (Dct.dcons k2 v2 t2) =
      if k1 < k2 then compatD t1 (Dct.dcons k2 v2 t2)
      else if k2 < k1 then compatD (Dct.dcons k1 v1 t1) t2
      else compatV v1 v2 && compatD t1 t2 := by
  rw [compatD]

theorem keyLtD_trans (x y : String) (hxy : x < y) (d : Dct) :
    keyLtD y d = true → keyLtD x d = true := by
  match d with
  | Dct.dnil =>
    intro _
    rfl
  | Dct.dcons k v t =>
    intro h
    rw [keyLtD_cons] at h ⊢
    rcases Bool.and_eq_true_iff.mp h with ⟨h1, h2⟩
    rw [keyLtD_trans x y hxy t h2]
    simp only [Bool.and_true]
    exact decide_eq_true (lt_trans hxy (of_decide_eq_true h1))

theorem dlook_none_of_keyLtD (k : String) (d : Dct) :
    keyLtD k d = true → dlook k d = none := by
  match d with
  | Dct.dnil =>
    intro _
    rfl
  | Dct.dcons k2 v t =>
    intro h
    rw [keyLtD_cons] at h
    rcases Bool.and_eq_true_iff.mp h with ⟨h1, h2⟩
    have hne : k ≠ k2 := ne_of_lt (of_decide_eq_true h1)
    simp only [dlook, if_neg hne]
    exact dlook_none_of_keyLtD k t h2

theorem dlook_some_key_gt (x k : String) (v : V) (d : Dct) :
    keyLtD x d = true → dlook k d = some v → x < k := by
  match d with
  | Dct.dnil =>
    intro _ h
    cases h
  | Dct.dcons k2 v2 t =>
    intro hlt h
    rw [keyLtD_cons] at hlt
    rcases Bool.and_eq_true_iff.mp hlt with ⟨h1, h2⟩
    by_cases hk : k = k2
    · rw [hk]
      exact of_decide_eq_true h1
    · simp only [dlook, if_neg hk] at h
      exact dlook_some_key_gt x k v t h2 h

theorem optCombine_none_right (x : Option V) : optCombine x none = x := by
  cases x <;> rfl

theorem ckeyVal_of_ok (a b c : V) (h : ckey a b = Except.ok (some c)) :
    ckeyVal a b = c := by
  simp [ckeyVal, h]

theorem noneFreeD_dlook (k : String) (v : V) (d : Dct) :
    noneFreeD d = true → dlook k d = some v → noneFreeV v = true := by
  match d with
  | Dct.dnil =>
    intro _ h
    cases h
  | Dct.dcons k2 v2 t =>
    intro hn h
    rw [noneFreeD_cons] at hn
    rcases Bool.and_eq_true_iff.mp hn with ⟨h1, h2⟩
    by_cases hk : k = k2
    · simp only [dlook, if_pos hk] at h
      cases h
      exact h1
    · simp only [dlook, if_neg hk] at h
      exact noneFreeD_dlook k v t h2 h

theorem sortedD_dlook (k : String) (v : V) (d : Dct) :
    sortedD d = true → dlook k d = some v → sortedV v = true := by
  match d with
  | Dct.dnil =>
    intro _ h
    cases h
  | Dct.dcons k2 v2 t =>
    intro hs h
    rw [sortedD_cons] at hs
    rcases Bool.and_eq_true_iff.mp hs with ⟨h12, h3⟩
    rcases Bool.and_eq_true_iff.mp h12 with ⟨h1, h2⟩
    by_cases hk : k = k2
    · simp only [dlook, if_pos hk] at h
      cases h
      exact h2
    · simp only [dlook, if_neg hk] at h
      exact sortedD_dlook k v t h3 h

theorem dlook_sizeOf (k : String) (v : V) (d : Dct) :
    dlook k d = some v → sizeOf v < sizeOf d := by
  match d with
  | Dct.dnil =>
    intro h
    cases h
  | Dct.dcons k2 v2 t =>
    intro h
    by_cases hk : k = k2
    · simp only [dlook, if_pos hk] at h
      cases h
      simp
      omega
    · simp only [dlook, if_neg hk] at h
      have := dlook_sizeOf k v t h
      simp
      omega

mutual
theorem ckey_spec (a b : V) (hna : noneFreeV a = true)
    (hnb : noneFreeV b = true) (hsa : sortedV a = true)
    (hsb : sortedV b = true) (hc : compatV a b = true) :
    ckey a b = Except.ok (some (ckeyVal a b)) ∧
    noneFreeV (ckeyVal a b) = true ∧ sortedV (ckeyVal a b) = true := by
  match a, b with
  | V.vnone, _ =>
    simp [noneFreeV] at hna
  | V.vnum x, V.vnone =>
    simp [noneFreeV] at hnb
  | V.vdict d, V.vnone =>
    simp [noneFreeV] at hnb
  | V.vnum x, V.vdict d =>
    simp [compatV] at hc
  | V.vdict d, V.vnum x =>
    simp [compatV] at hc
  | V.vnum x, V.vnum y =>
    have h1 : ckey (V.vnum x) (V.vnum y) =
        Except.ok (some (V.vnum (x + y))) := by
      simp [ckey]
    rw [h1, ckeyVal_of_ok _ _ _ h1]
    refine ⟨rfl, ?_, ?_⟩ <;> simp [noneFreeV, sortedV]
  | V.vdict d1, V.vdict d2 =>
    have hcd : compatD d1 d2 = true := by
      rw [compatV_dict] at hc
      exact hc
    obtain ⟨e, he, hne, hse, hkl, hlook⟩ :=
      combineD_spec d1 d2 (by rwa [noneFreeV_dict] at hna)
        (by rwa [noneFreeV_dict] at hnb) (by rwa [sortedV_dict] at hsa)
        (by rwa [sortedV_dict] at hsb) hcd
    have h1 : ckey (V.vdict d1) (V.vdict d2) =
        Except.ok (some (V.vdict e)) := by
      simp [ckey, he]
    rw [h1, ckeyVal_of_ok _ _ _ h1]
    refine ⟨rfl, ?_, ?_⟩
    · rwa [noneFreeV_dict]
    · rwa [sortedV_dict]
  termination_by sizeOf a + sizeOf b

theorem combineD_spec (d1 d2 : Dct) (hn1 : noneFreeD d1 = true)
    (hn2 : noneFreeD d2 = true) (hs1 : sortedD d1 = true)
    (hs2 : sortedD d2 = true) (hc : compatD d1 d2 = true) :
    ∃ e : Dct, combineD d1 d2 = Except.ok e ∧ noneFreeD e = true ∧
      sortedD e = true ∧
      (∀ x : String, keyLtD x d1 = true → keyLtD x d2 = true →
        keyLtD x e = true) ∧
      (∀ k : String, dlook k e = optCombine (dlook k d1) (dlook k d2)) := by
  match d1, d2 with
  | Dct.dnil, j =>
    refine ⟨j, by simp [combineD], hn2, hs2, fun x _ hx => hx, fun k => rfl⟩
  | Dct.dcons k1 v1 t1, Dct.dnil =>
    refine ⟨Dct.dcons k1 v1 t1, by simp [combineD], hn1, hs1,
      fun x hx _ => hx, fun k => (optCombine_none_right _).symm⟩
  | Dct.dcons k1 v1 t1, Dct.dcons k2 v2 t2 =>
    rw [noneFreeD_cons] at hn1 hn2
    rcases Bool.and_eq_true_iff.mp hn1 with ⟨hnv1, hnt1⟩
    rcases Bool.and_eq_true_iff.mp hn2 with ⟨hnv2, hnt2⟩
    rw [sortedD_cons] at hs1 hs2
    rcases Bool.and_eq_true_iff.mp hs1 with ⟨hs1a, hst1⟩
    rcases Bool.and_eq_true_iff.mp hs1a with ⟨hkl1, hsv1⟩
    rcases Bool.and_eq_true_iff.mp hs2 with ⟨hs2a, hst2⟩
    rcases Bool.and_eq_true_iff.mp hs2a with ⟨hkl2, hsv2⟩
    rw [compatD_cons_cons] at hc
    by_cases hlt : k1 < k2
    · rw [if_pos hlt] at hc
      obtain ⟨e, he, hne, hse, hkl, hlook⟩ :=
        combineD_spec t1 (Dct.dcons k2 v2 t2) hnt1
          (by rw [noneFreeD_cons, hnv2, hnt2]; rfl) hst1
          (by rw [sortedD_cons, hkl2, hsv2, hst2]; rfl) hc
      have hcomb : combineD (Dct.dcons k1 v1 t1) (Dct.dcons k2 v2 t2) =
          Except.ok (Dct.dcons k1 v1 e) := by
        rw [combineD]
        simp [hlt, he]
      have hklt2 : keyLtD k1 (Dct.dcons k2 v2 t2) = true := by
        rw [keyLtD_cons, decide_eq_true hlt,
          keyLtD_trans k1 k2 hlt t2 hkl2]
        rfl
      have hkle : keyLtD k1 e = true := hkl k1 hkl1 hklt2
      refine ⟨Dct.dcons k1 v1 e, hcomb, ?_, ?_, ?_, ?_⟩
      · rw [noneFreeD_cons, hnv1, hne]
        rfl
      · rw [sortedD_cons, hkle, hsv1, hse]
        rfl
      · intro x hx1 hx2
        rw [keyLtD_cons] at hx1 ⊢
        rcases Bool.and_eq_true_iff.mp hx1 with ⟨hxk, hxt⟩
        rw [hxk, hkl x hxt hx2]
        rfl
      · intro k
        by_cases hk : k = k1
        · subst hk
          have hd2none : dlook k (Dct.dcons k2 v2 t2) = none :=
            dlook_none_of_keyLtD k _ hklt2
          rw [hd2none, optCombine_none_right]
          simp [dlook]
        · simp only [dlook, if_neg hk]
          exact hlook k
    · by_cases hgt : k2 < k1
      · rw [if_neg hlt, if_pos hgt] at hc
        obtain ⟨e, he, hne, hse, hkl, hlook⟩ :=
          combineD_spec (Dct.dcons k1 v1 t1) t2
            (by rw [noneFreeD_cons, hnv1, hnt1]; rfl) hnt2
            (by rw [sortedD_cons, hkl1, hsv1, hst1]; rfl) hst2 hc
        have hcomb : combineD (Dct.dcons k1 v1 t1) (Dct.dcons k2 v2 t2) =
            Except.ok (Dct.dcons k2 v2 e) := by
          rw [combineD]
          simp [hlt, hgt, he]
        have hklt1 : keyLtD k2 (Dct.dcons k1 v1 t1) = true := by
          rw [keyLtD_cons, decide_eq_true hgt,
            keyLtD_trans k2 k1 hgt t1 hkl1]
          rfl
        have hkle : keyLtD k2 e = true := hkl k2 hklt1 hkl2
        refine ⟨Dct.dcons k2 v2 e, hcomb, ?_, ?_, ?_, ?_⟩
        · rw [noneFreeD_cons, hnv2, hne]
          rfl
        · rw [sortedD_cons, hkle, hsv2, hse]
          rfl
        · intro x hx1 hx2
          rw [keyLtD_cons] at hx2 ⊢
          rcases Bool.and_eq_true_iff.mp hx2 with ⟨hxk, hxt⟩
          rw [hxk, hkl x hx1 hxt]
          rfl
        · intro k
          by_cases hk : k = k2
          · subst hk
            have hd1none : dlook k (Dct.dcons k1 v1 t1) = none :=
              dlook_none_of_keyLtD k _ hklt1
            rw [hd1none]
            simp [dlook, optCombine]
          · simp only [dlook, if_neg hk]
            rw [hlook k]
            simp only [dlook, if_neg hk]
      · have heq : k1 = k2 := le_antisymm (not_lt.mp hgt) (not_lt.mp hlt)
        rw [if_neg hlt, if_neg hgt] at hc
        rcases Bool.and_eq_true_iff.mp hc with ⟨hcv, hct⟩
        obtain ⟨hck, hncv, hscv⟩ := ckey_spec v1 v2 hnv1 hnv2 hsv1 hsv2 hcv
        obtain ⟨e, he, hne, hse, hkl, hlook⟩ :=
          combineD_spec t1 t2 hnt1 hnt2 hst1 hst2 hct
        have hcomb : combineD (Dct.dcons k1 v1 t1) (Dct.dcons k2 v2 t2) =
            Except.ok (Dct.dcons k1 (ckeyVal v1 v2) e) := by
          rw [combineD]
          simp [hlt, hgt, hck, he]
        have hklt2 : keyLtD k1 t2 = true := heq ▸ hkl2
        have hkle : keyLtD k1 e = true := hkl k1 hkl1 hklt2
        refine ⟨Dct.dcons k1 (ckeyVal v1 v2) e, hcomb, ?_, ?_, ?_, ?_⟩
        · rw [noneFreeD_cons, hncv, hne]
          rfl
        · rw [sortedD_cons, hkle, hscv, hse]
          rfl
        · intro x hx1 hx2
          rw [keyLtD_cons] at hx1 ⊢
          rcases Bool.and_eq_true_iff.mp hx1 with ⟨hxk, hxt⟩
          rw [keyLtD_cons] at hx2
          rcases Bool.and_eq_true_iff.mp hx2 with ⟨_, hxt2⟩
          rw [hxk, hkl x hxt hxt2]
          rfl
        · intro k
          by_cases hk : k = k1
          · subst hk
            simp only [dlook, if_pos rfl, if_pos heq]
            rfl
          · have hk2 : k ≠ k2 := heq ▸ hk
            simp only [dlook, if_neg hk, if_neg hk2]
            exact hlook k
  termination_by sizeOf d1 + sizeOf d2
end

theorem dlook_cons_self (k : String) (v : V) (t : Dct) :
    dlook k (Dct.dcons k v t) = some v := by
  simp [dlook]

theorem dlook_cons_ne (k k2 : String) (v : V) (t : Dct) (h : k ≠ k2) :
    dlook k (Dct.dcons k2 v t) = dlook k t := by
  simp [dlook, h]

theorem dct_ext (d e : Dct) (hd : sortedD d = true) (he : sortedD e = true)
    (h : ∀ k, dlook k d = dlook k e) : d = e := by
  match d, e with
  | Dct.dnil, Dct.dnil => rfl
  | Dct.dnil, Dct.dcons k2 v2 t2 =>
    have hk := h k2
    rw [dlook_cons_self] at hk
    simp [dlook] at hk
  | Dct.dcons k1 v1 t1, Dct.dnil =>
    have hk := h k1
    rw [dlook_cons_self] at hk
    simp [dlook] at hk
  | Dct.dcons k1 v1 t1, Dct.dcons k2 v2 t2 =>
    rw [sortedD_cons] at hd he
    rcases Bool.and_eq_true_iff.mp hd with ⟨hd12, hdt⟩
    rcases Bool.and_eq_true_iff.mp hd12 with ⟨hdk, _⟩
    rcases Bool.and_eq_true_iff.mp he with ⟨he12, het⟩
    rcases Bool.and_eq_true_iff.mp he12 with ⟨hek, _⟩
    by_cases hk : k1 = k2
    · subst hk
      have hv := h k1
      rw [dlook_cons_self, dlook_cons_self] at hv
      obtain rfl : v1 = v2 := Option.some.inj hv
      have htails : ∀ k, dlook k t1 = dlook k t2 := by
        intro k
        by_cases hkk : k = k1
        · subst hkk
          rw [dlook_none_of_keyLtD k t1 hdk, dlook_none_of_keyLtD k t2 hek]
        · have hk2 := h k
          rwa [dlook_cons_ne k k1 v1 t1 hkk,
            dlook_cons_ne k k1 v1 t2 hkk] at hk2
      rw [dct_ext t1 t2 hdt het htails]
    · exfalso
      have h1 := h k1
      rw [dlook_cons_self, dlook_cons_ne k1 k2 v2 t2 hk] at h1
      have h2 := h k2
      rw [dlook_cons_ne k2 k1 v1 t1 (Ne.symm hk), dlook_cons_self] at h2
      have hgt1 : k2 < k1 := dlook_some_key_gt k2 k1 v1 t2 hek h1.symm
      have hgt2 : k1 < k2 := dlook_some_key_gt k1 k2 v2 t1 hdk h2
      exact absurd hgt2 (asymm hgt1)

mutual
theorem compatV_symm (a b : V) : compatV a b = compatV b a := by
  match a, b with
  | V.vnum _, V.vnum _ => simp [compatV]
  | V.vdict d1, V.vdict d2 =>
    rw [compatV_dict, compatV_dict, compatD_symm d1 d2]
  | V.vnone, V.vnone => simp [compatV]
  | V.vnone, V.vnum _ => simp [compatV]
  | V.vnone, V.vdict _ => simp [compatV]
  | V.vnum _, V.vnone => simp [compatV]
  | V.vdict _, V.vnone => simp [compatV]
  | V.vnum _, V.vdict _ => simp [compatV]
  | V.vdict _, V.vnum _ => simp [compatV]
  termination_by sizeOf a + sizeOf b

theorem compatD_symm (d1 d2 : Dct) : compatD d1 d2 = compatD d2 d1 := by
  match d1, d2 with
  | Dct.dnil, Dct.dnil => simp [compatD]
  | Dct.dnil, Dct.dcons k2 v2 t2 => simp [compatD]
  | Dct.dcons k1 v1 t1, Dct.dnil => simp [compatD]
  | Dct.dcons k1 v1 t1, Dct.dcons k2 v2 t2 =>
    rw [compatD_cons_cons, compatD_cons_cons]
    by_cases hlt : k1 < k2
    · rw [if_pos hlt, if_neg (asymm hlt), if_pos hlt,
        compatD_symm t1 (Dct.dcons k2 v2 t2)]
    · by_cases hgt : k2 < k1
      · rw [if_neg hlt, if_pos hgt, if_pos hgt,
          compatD_symm (Dct.dcons k1 v1 t1) t2]
      · rw [if_neg hlt, if_neg hgt, if_neg hgt, if_neg hlt,
          compatV_symm v1 v2, compatD_symm t1 t2]
  termination_by sizeOf d1 + sizeOf d2
end

theorem compatD_lookup_mp (d1 d2 : Dct) (hs1 : sortedD d1 = true)
    (hs2 : sortedD d2 = true) (hc : compatD d1 d2 = true) :
    ∀ (k : String) (a b : V), dlook k d1 = some a → dlook k d2 = some b →
      compatV a b = true := by
  match d1, d2 with
  | Dct.dnil, _ =>
    intro k a b ha hb
    cases ha
  | Dct.dcons k1 v1 t1, Dct.dnil =>
    intro k a b ha hb
    cases hb
  | Dct.dcons k1 v1 t1, Dct.dcons k2 v2 t2 =>
    intro k a b ha hb
    rw [sortedD_cons] at hs1 hs2
    rcases Bool.and_eq_true_iff.mp hs1 with ⟨hs1a, hst1⟩
    rcases Bool.and_eq_true_iff.mp hs1a with ⟨hkl1, _⟩
    rcases Bool.and_eq_true_iff.mp hs2 with ⟨hs2a, hst2⟩
    rcases Bool.and_eq_true_iff.mp hs2a with ⟨hkl2, _⟩
    rw [compatD_cons_cons] at hc
    by_cases hlt : k1 < k2
    · rw [if_pos hlt] at hc
      have hklt2 : keyLtD k1 (Dct.dcons k2 v2 t2) = true := by
        rw [keyLtD_cons, decide_eq_true hlt,
          keyLtD_trans k1 k2 hlt t2 hkl2]
        rfl
      by_cases hk : k = k1
      · subst hk
        rw [dlook_none_of_keyLtD k _ hklt2] at hb
        cases hb
      · rw [dlook_cons_ne k k1 v1 t1 hk] at ha
        exact compatD_lookup_mp t1 (Dct.dcons k2 v2 t2) hst1
          (by rw [sortedD_cons]; exact hs2) hc k a b ha hb
    · by_cases hgt : k2 < k1
      · rw [if_neg hlt, if_pos hgt] at hc
        have hklt1 : keyLtD k2 (Dct.dcons k1 v1 t1) = true := by
          rw [keyLtD_cons, decide_eq_true hgt,
            keyLtD_trans k2 k1 hgt t1 hkl1]
          rfl
        by_cases hk : k = k2
        · subst hk
          rw [dlook_none_of_keyLtD k _ hklt1] at ha
          cases ha
        · rw [dlook_cons_ne k k2 v2 t2 hk] at hb
          exact compatD_lookup_mp (Dct.dcons k1 v1 t1) t2
            (by rw [sortedD_cons]; exact hs1) hst2 hc k a b ha hb
      · have heq : k1 = k2 := le_antisymm (not_lt.mp hgt) (not_lt.mp hlt)
        rw [if_neg hlt, if_neg hgt] at hc
        rcases Bool.and_eq_true_iff.mp hc with ⟨hcv, hct⟩
        by_cases hk : k = k1
        · subst hk
          subst heq
          rw [dlook_cons_self] at ha hb
          obtain rfl := Option.some.inj ha
          obtain rfl := Option.some.inj hb
          exact hcv
        · rw [dlook_cons_ne k k1 v1 t1 hk] at ha
          rw [dlook_cons_ne k k2 v2 t2 (heq ▸ hk)] at hb
          exact compatD_lookup_mp t1 t2 hst1 hst2 hct k a b ha hb

mutual
theorem ckeyVal_comm (a b : V) (hna : noneFreeV a = true)
    (hnb : noneFreeV b = true) (hsa : sortedV a = true)
    (hsb : sortedV b = true) (hc : compatV a b = true) :
    ckeyVal a b = ckeyVal b a := by
  match a, b with
  | V.vnone, _ => simp [noneFreeV] at hna
  | V.vnum _, V.vnone => simp [noneFreeV] at hnb
  | V.vdict _, V.vnone => simp [noneFreeV] at hnb
  | V.vnum _, V.vdict _ => simp [compatV] at hc
  | V.vdict _, V.vnum _ => simp [compatV] at hc
  | V.vnum x, V.vnum y =>
    have h1 : ckey (V.vnum x) (V.vnum y) =
        Except.ok (some (V.vnum (x + y))) := by
      simp [ckey]
    have h2 : ckey (V.vnum y) (V.vnum x) =
        Except.ok (some (V.vnum (y + x))) := by
      simp [ckey]
    rw [ckeyVal_of_ok _ _ _ h1, ckeyVal_of_ok _ _ _ h2, add_comm]
  | V.vdict d1, V.vdict d2 =>
    have hcd : compatD d1 d2 = true := by rwa [compatV_dict] at hc
    have hn1 : noneFreeD d1 = true := by rwa [noneFreeV_dict] at hna
    have hn2 : noneFreeD d2 = true := by rwa [noneFreeV_dict] at hnb
    have hs1 : sortedD d1 = true := by rwa [sortedV_dict] at hsa
    have hs2 : sortedD d2 = true := by rwa [sortedV_dict] at hsb
    have hcomm := combineD_comm d1 d2 hn1 hn2 hs1 hs2 hcd
    obtain ⟨e, he, _, _, _, _⟩ := combineD_spec d1 d2 hn1 hn2 hs1 hs2 hcd
    have he2 : combineD d2 d1 = Except.ok e := by rw [← hcomm, he]
    have h1 : ckey (V.vdict d1) (V.vdict d2) =
        Except.ok (some (V.vdict e)) := by
      simp [ckey, he]
    have h2 : ckey (V.vdict d2) (V.vdict d1) =
        Except.ok (some (V.vdict e)) := by
      simp [ckey, he2]
    rw [ckeyVal_of_ok _ _ _ h1, ckeyVal_of_ok _ _ _ h2]
  termination_by sizeOf a + sizeOf b

theorem combineD_comm (d1 d2 : Dct) (hn1 : noneFreeD d1 = true)
    (hn2 : noneFreeD d2 = true) (hs1 : sortedD d1 = true)
    (hs2 : sortedD d2 = true) (hc : compatD d1 d2 = true) :
    combineD d1 d2 = combineD d2 d1 := by
  have hc2 : compatD d2 d1 = true := by rw [compatD_symm d2 d1]; exact hc
  obtain ⟨e1, he1, _, hse1, _, hlook1⟩ :=
    combineD_spec d1 d2 hn1 hn2 hs1 hs2 hc
  obtain ⟨e2, he2, _, hse2, _, hlook2⟩ :=
    combineD_spec d2 d1 hn2 hn1 hs2 hs1 hc2
  rw [he1, he2]
  have heq : e1 = e2 := by
    apply dct_ext e1 e2 hse1 hse2
    intro k
    rw [hlook1 k, hlook2 k]
    rcases hx : dlook k d1 with _ | a <;> rcases hy : dlook k d2 with _ | b
    · rfl
    · rfl
    · rw [optCombine_none_right]
      rfl
    · have hsz1 : sizeOf a < sizeOf d1 := dlook_sizeOf k a d1 hx
      have hsz2 : sizeOf b < sizeOf d2 := dlook_sizeOf k b d2 hy
      have hcab : compatV a b = true :=
        compatD_lookup_mp d1 d2 hs1 hs2 hc k a b hx hy
      show some (ckeyVal a b) = some (ckeyVal b a)
      rw [ckeyVal_comm a b (noneFreeD_dlook k a d1 hn1 hx)
        (noneFreeD_dlook k b d2 hn2 hy) (sortedD_dlook k a d1 hs1 hx)
        (sortedD_dlook k b d2 hs2 hy) hcab]
  rw [heq]
  termination_by sizeOf d1 + sizeOf d2
end

theorem compatD_lookup_mpr (d1 d2 : Dct) (hs1 : sortedD d1 = true)
    (hs2 : sortedD d2 = true)
    (h : ∀ (k : String) (a b : V), dlook k d1 = some a →
      dlook k d2 = some b → compatV a b = true) :
    compatD d1 d2 = true := by
  match d1, d2 with
  | Dct.dnil, j => simp [compatD]
  | Dct.dcons k1 v1 t1, Dct.dnil => simp [compatD]
  | Dct.dcons k1 v1 t1, Dct.dcons k2 v2 t2 =>
    rw [sortedD_cons] at hs1 hs2
    rcases Bool.and_eq_true_iff.mp hs1 with ⟨hs1a, hst1⟩
    rcases Bool.and_eq_true_iff.mp hs1a with ⟨hkl1, hsv1⟩
    rcases Bool.and_eq_true_iff.mp hs2 with ⟨hs2a, hst2⟩
    rcases Bool.and_eq_true_iff.mp hs2a with ⟨hkl2, hsv2⟩
    rw [compatD_cons_cons]
    by_cases hlt : k1 < k2
    · rw [if_pos hlt]
      apply compatD_lookup_mpr t1 (Dct.dcons k2 v2 t2) hst1
        (by rw [sortedD_cons]; exact hs2)
      intro k a b ha hb
      have hkk1 : k ≠ k1 := by
        intro hkk
        subst hkk
        rw [dlook_none_of_keyLtD k t1 hkl1] at ha
        cases ha
      exact h k a b (by rw [dlook_cons_ne k k1 v1 t1 hkk1]; exact ha) hb
    · by_cases hgt : k2 < k1
      · rw [if_neg hlt, if_pos hgt]
        apply compatD_lookup_mpr (Dct.dcons k1 v1 t1) t2
          (by rw [sortedD_cons]; exact hs1) hst2
        intro k a b ha hb
        have hkk2 : k ≠ k2 := by
          intro hkk
          subst hkk
          rw [dlook_none_of_keyLtD k t2 hkl2] at hb
          cases hb
        exact h k a b ha (by rw [dlook_cons_ne k k2 v2 t2 hkk2]; exact hb)
      · have heq : k1 = k2 := le_antisymm (not_lt.mp hgt) (not_lt.mp hlt)
        rw [if_neg hlt, if_neg hgt]
        have hhead : compatV v1 v2 = true := by
          apply h k1
          · exact dlook_cons_self k1 v1 t1
          · rw [heq]
            exact dlook_cons_self k2 v2 t2
        rw [hhead]
        have htail : compatD t1 t2 = true := by
          apply compatD_lookup_mpr t1 t2 hst1 hst2
          intro k a b ha hb
          have hkk1 : k ≠ k1 := by
            intro hkk
            subst hkk
            rw [dlook_none_of_keyLtD k t1 hkl1] at ha
            cases ha
          exact h k a b (by rw [dlook_cons_ne k k1 v1 t1 hkk1]; exact ha)
            (by rw [dlook_cons_ne k k2 v2 t2 (heq ▸ hkk1)]; exact hb)
        rw [htail]
        rfl

mutual
theorem compatV_ckeyVal (a b c : V) (hna : noneFreeV a = true)
    (hnb : noneFreeV b = true) (hsa : sortedV a = true)
    (hsb : sortedV b = true) (hsc : sortedV c = true)
    (hab : compatV a b = true) (hac : compatV a c = true)
    (hbc : compatV b c = true) :
    compatV (ckeyVal a b) c = true := by
  match a, b, c with
  | V.vnone, _, _ => simp [noneFreeV] at hna
  | V.vnum _, V.vnone, _ => simp [compatV] at hab
  | V.vdict _, V.vnone, _ => simp [compatV] at hab
  | V.vnum _, V.vdict _, _ => simp [compatV] at hab
  | V.vdict _, V.vnum _, _ => simp [compatV] at hab
  | V.vnum x, V.vnum y, V.vnone => simp [compatV] at hac
  | V.vnum x, V.vnum y, V.vdict _ => simp [compatV] at hac
  | V.vdict _, V.vdict _, V.vnone => simp [compatV] at hac
  | V.vdict _, V.vdict _, V.vnum _ => simp [compatV] at hac
  | V.vnum x, V.vnum y, V.vnum z =>
    have h1 : ckey (V.vnum x) (V.vnum y) =
        Except.ok (some (V.vnum (x + y))) := by
      simp [ckey]
    rw [ckeyVal_of_ok _ _ _ h1]
    simp [compatV]
  | V.vdict d1, V.vdict d2, V.vdict d3 =>
    have hn1 : noneFreeD d1 = true := by rwa [noneFreeV_dict] at hna
    have hn2 : noneFreeD d2 = true := by rwa [noneFreeV_dict] at hnb
    have hs1 : sortedD d1 = true := by rwa [sortedV_dict] at hsa
    have hs2 : sortedD d2 = true := by rwa [sortedV_dict] at hsb
    have hs3 : sortedD d3 = true := by rwa [sortedV_dict] at hsc
    have h12 : compatD d1 d2 = true := by rwa [compatV_dict] at hab
    have h13 : compatD d1 d3 = true := by rwa [compatV_dict] at hac
    have h23 : compatD d2 d3 = true := by rwa [compatV_dict] at hbc
    obtain ⟨e, he, _, hse, _, _⟩ := combineD_spec d1 d2 hn1 hn2 hs1 hs2 h12
    have h1 : ckey (V.vdict d1) (V.vdict d2) =
        Except.ok (some (V.vdict e)) := by
      simp [ckey, he]
    rw [ckeyVal_of_ok _ _ _ h1, compatV_dict]
    exact compatD_combine d1 d2 d3 hn1 hn2 hs1 hs2 hs3 h12 h13 h23 e he
  termination_by sizeOf a + sizeOf b + sizeOf c

theorem compatD_combine (d1 d2 d3 : Dct) (hn1 : noneFreeD d1 = true)
    (hn2 : noneFreeD d2 = true) (hs1 : sortedD d1 = true)
    (hs2 : sortedD d2 = true) (hs3 : sortedD d3 = true)
    (h12 : compatD d1 d2 = true) (h13 : compatD d1 d3 = true)
    (h23 : compatD d2 d3 = true) (e : Dct)
    (he : combineD d1 d2 = Except.ok e) : compatD e d3 = true := by
  obtain ⟨e2, he2, hne2, hse2, _, hlook⟩ :=
    combineD_spec d1 d2 hn1 hn2 hs1 hs2 h12
  rw [he] at he2
  obtain rfl : e = e2 := Except.ok.inj he2
  apply compatD_lookup_mpr e d3 hse2 hs3
  intro k x c hx hc
  rw [hlook k] at hx
  rcases ha2 : dlook k d1 with _ | a <;> rcases hb2 : dlook k d2 with _ | b <;>
      rw [ha2, hb2] at hx
  · cases hx
  · obtain rfl := Option.some.inj hx
    exact compatD_lookup_mp d2 d3 hs2 hs3 h23 k b c hb2 hc
  · rw [optCombine_none_right] at hx
    obtain rfl := Option.some.inj hx
    exact compatD_lookup_mp d1 d3 hs1 hs3 h13 k a c ha2 hc
  · obtain rfl := Option.some.inj hx
    have hsza : sizeOf a < sizeOf d1 := dlook_sizeOf k a d1 ha2
    have hszb : sizeOf b < sizeOf d2 := dlook_sizeOf k b d2 hb2
    have hszc : sizeOf c < sizeOf d3 := dlook_sizeOf k c d3 hc
    exact compatV_ckeyVal a b c (noneFreeD_dlook k a d1 hn1 ha2)
      (noneFreeD_dlook k b d2 hn2 hb2) (sortedD_dlook k a d1 hs1 ha2)
      (sortedD_dlook k b d2 hs2 hb2) (sortedD_dlook k c d3 hs3 hc)
      (compatD_lookup_mp d1 d2 hs1 hs2 h12 k a b ha2 hb2)
      (compatD_lookup_mp d1 d3 hs1 hs3 h13 k a c ha2 hc)
      (compatD_lookup_mp d2 d3 hs2 hs3 h23 k b c hb2 hc)
  termination_by sizeOf d1 + sizeOf d2 + sizeOf d3
end

mutual
theorem ckeyVal_assoc (a b c : V) (hna : noneFreeV a = true)
    (hnb : noneFreeV b = true) (hnc : noneFreeV c = true)
    (hsa : sortedV a = true) (hsb : sortedV b = true)
    (hsc : sortedV c = true) (hab : compatV a b = true)
    (hac : compatV a c = true) (hbc : compatV b c = true) :
    ckeyVal (ckeyVal a b) c = ckeyVal a (ckeyVal b c) := by
  match a, b, c with
  | V.vnone, _, _ => simp [noneFreeV] at hna
  | _, V.vnone, _ => simp [noneFreeV] at hnb
  | _, _, V.vnone => simp [noneFreeV] at hnc
  | V.vnum _, V.vdict _, _ => simp [compatV] at hab
  | V.vdict _, V.vnum _, _ => simp [compatV] at hab
  | V.vnum _, V.vnum _, V.vdict _ => simp [compatV] at hac
  | V.vdict _, V.vdict _, V.vnum _ => simp [compatV] at hac
  | V.vnum x, V.vnum y, V.vnum z =>
    have h1 : ckey (V.vnum x) (V.vnum y) =
        Except.ok (some (V.vnum (x + y))) := by
      simp [ckey]
    have h2 : ckey (V.vnum y) (V.vnum z) =
        Except.ok (some (V.vnum (y + z))) := by
      simp [ckey]
    have h3 : ckey (V.vnum (x + y)) (V.vnum z) =
        Except.ok (some (V.vnum (x + y + z))) := by
      simp [ckey]
    have h4 : ckey (V.vnum x) (V.vnum (y + z)) =
        Except.ok (some (V.vnum (x + (y + z)))) := by
      simp [ckey]
    rw [ckeyVal_of_ok _ _ _ h1, ckeyVal_of_ok _ _ _ h2,
      ckeyVal_of_ok _ _ _ h3, ckeyVal_of_ok _ _ _ h4, add_assoc]
  | V.vdict d1, V.vdict d2, V.vdict d3 =>
    have hn1 : noneFreeD d1 = true := by rwa [noneFreeV_dict] at hna
    have hn2 : noneFreeD d2 = true := by rwa [noneFreeV_dict] at hnb
    have hn3 : noneFreeD d3 = true := by rwa [noneFreeV_dict] at hnc
    have hs1 : sortedD d1 = true := by rwa [sortedV_dict] at hsa
    have hs2 : sortedD d2 = true := by rwa [sortedV_dict] at hsb
    have hs3 : sortedD d3 = true := by rwa [sortedV_dict] at hsc
    have h12 : compatD d1 d2 = true := by rwa [compatV_dict] at hab
    have h13 : compatD d1 d3 = true := by rwa [compatV_dict] at hac
    have h23 : compatD d2 d3 = true := by rwa [compatV_dict] at hbc
    obtain ⟨e12, e23, e, he12, he23, heL, heR⟩ :=
      combineD_assoc d1 d2 d3 hn1 hn2 hn3 hs1 hs2 hs3 h12 h13 h23
    have hv12 : ckey (V.vdict d1) (V.vdict d2) =
        Except.ok (some (V.vdict e12)) := by
      simp [ckey, he12]
    have hv23 : ckey (V.vdict d2) (V.vdict d3) =
        Except.ok (some (V.vdict e23)) := by
      simp [ckey, he23]
    have hvL : ckey (V.vdict e12) (V.vdict d3) =
        Except.ok (some (V.vdict e)) := by
      simp [ckey, heL]
    have hvR : ckey (V.vdict d1) (V.vdict e23) =
        Except.ok (some (V.vdict e)) := by
      simp [ckey, heR]
    rw [ckeyVal_of_ok _ _ _ hv12, ckeyVal_of_ok _ _ _ hv23,
      ckeyVal_of_ok _ _ _ hvL, ckeyVal_of_ok _ _ _ hvR]
  termination_by sizeOf a + sizeOf b + sizeOf c

theorem combineD_assoc (d1 d2 d3 : Dct) (hn1 : noneFreeD d1 = true)
    (hn2 : noneFreeD d2 = true) (hn3 : noneFreeD d3 = true)
    (hs1 : sortedD d1 = true) (hs2 : sortedD d2 = true)
    (hs3 : sortedD d3 = true) (h12 : compatD d1 d2 = true)
    (h13 : compatD d1 d3 = true) (h23 : compatD d2 d3 = true) :
    ∃ e12 e23 e : Dct, combineD d1 d2 = Except.ok e12 ∧
      combineD d2 d3 = Except.ok e23 ∧
      combineD e12 d3 = Except.ok e ∧ combineD d1 e23 = Except.ok e := by
  obtain ⟨e12, he12, hne12, hse12, _, hlook12⟩ :=
    combineD_spec d1 d2 hn1 hn2 hs1 hs2 h12
  obtain ⟨e23, he23, hne23, hse23, _, hlook23⟩ :=
    combineD_spec d2 d3 hn2 hn3 hs2 hs3 h23
  have hc123 : compatD e12 d3 = true :=
    compatD_combine d1 d2 d3 hn1 hn2 hs1 hs2 hs3 h12 h13 h23 e12 he12
  have hc231 : compatD e23 d1 = true :=
    compatD_combine d2 d3 d1 hn2 hn3 hs2 hs3 hs1 h23
      (by rw [compatD_symm]; exact h12) (by rw [compatD_symm]; exact h13)
      e23 he23
  have hc123b : compatD d1 e23 = true := by
    rw [compatD_symm]
    exact hc231
  obtain ⟨eL, heL, _, hseL, _, hlookL⟩ :=
    combineD_spec e12 d3 hne12 hn3 hse12 hs3 hc123
  obtain ⟨eR, heR, _, hseR, _, hlookR⟩ :=
    combineD_spec d1 e23 hn1 hne23 hs1 hse23 hc123b
  have heq : eL = eR := by
    apply dct_ext eL eR hseL hseR
    intro k
    rw [hlookL k, hlookR k, hlook12 k, hlook23 k]
    rcases hx : dlook k d1 with _ | a <;> rcases hy : dlook k d2 with _ | b <;>
        rcases hz : dlook k d3 with _ | c
    · rfl
    · rfl
    · rfl
    · rfl
    · rfl
    · rfl
    · rfl
    · have hsza : sizeOf a < sizeOf d1 := dlook_sizeOf k a d1 hx
      have hszb : sizeOf b < sizeOf d2 := dlook_sizeOf k b d2 hy
      have hszc : sizeOf c < sizeOf d3 := dlook_sizeOf k c d3 hz
      show some (ckeyVal (ckeyVal a b) c) = some (ckeyVal a (ckeyVal b c))
      rw [ckeyVal_assoc a b c (noneFreeD_dlook k a d1 hn1 hx)
        (noneFreeD_dlook k b d2 hn2 hy) (noneFreeD_dlook k c d3 hn3 hz)
        (sortedD_dlook k a d1 hs1 hx) (sortedD_dlook k b d2 hs2 hy)
        (sortedD_dlook k c d3 hs3 hz)
        (compatD_lookup_mp d1 d2 hs1 hs2 h12 k a b hx hy)
        (compatD_lookup_mp d1 d3 hs1 hs3 h13 k a c hx hz)
        (compatD_lookup_mp d2 d3 hs2 hs3 h23 k b c hy hz)]
  exact ⟨e12, e23, eL, he12, he23, heL, heq ▸ heR⟩
  termination_by sizeOf d1 + sizeOf d2 + sizeOf d3
end

/-! ## Pipeline-result addition: option-level lifting -/

theorem cdba_comm (o1 o2 : Option Dct) (h1 : wfOD o1 = true)
    (h2 : wfOD o2 = true) (hc : compatOD o1 o2 = true) :
    combine_dicts_by_addition o1 o2 = combine_dicts_by_addition o2 o1 := by
  match o1, o2 with
  | none, none => rfl
  | none, some j => rfl
  | some i, none => rfl
  | some i, some j =>
    simp only [wfOD] at h1 h2
    rcases Bool.and_eq_true_iff.mp h1 with ⟨hn1, hs1⟩
    rcases Bool.and_eq_true_iff.mp h2 with ⟨hn2, hs2⟩
    simp only [compatOD] at hc
    simp only [combine_dicts_by_addition,
      combineD_comm i j hn1 hn2 hs1 hs2 hc]

theorem cdba_assoc (o1 o2 o3 : Option Dct) (h1 : wfOD o1 = true)
    (h2 : wfOD o2 = true) (h3 : wfOD o3 = true)
    (h12 : compatOD o1 o2 = true) (h13 : compatOD o1 o3 = true)
    (h23 : compatOD o2 o3 = true) :
    ∃ o12 o23 o : Option Dct,
      combine_dicts_by_addition o1 o2 = Except.ok o12 ∧
      combine_dicts_by_addition o2 o3 = Except.ok o23 ∧
      combine_dicts_by_addition o12 o3 = Except.ok o ∧
      combine_dicts_by_addition o1 o23 = Except.ok o := by
  match o1, o2, o3 with
  | none, none, none => exact ⟨none, none, none, rfl, rfl, rfl, rfl⟩
  | some i, none, none => exact ⟨some i, none, some i, rfl, rfl, rfl, rfl⟩
  | none, some j, none => exact ⟨some j, some j, some j, rfl, rfl, rfl, rfl⟩
  | none, none, some m => exact ⟨none, some m, some m, rfl, rfl, rfl, rfl⟩
  | some i, some j, none =>
    simp only [wfOD] at h1 h2
    rcases Bool.and_eq_true_iff.mp h1 with ⟨hn1, hs1⟩
    rcases Bool.and_eq_true_iff.mp h2 with ⟨hn2, hs2⟩
    simp only [compatOD] at h12
    obtain ⟨e, he, _, _, _, _⟩ := combineD_spec i j hn1 hn2 hs1 hs2 h12
    refine ⟨some e, some j, some e, ?_, rfl, rfl, ?_⟩ <;>
      simp [combine_dicts_by_addition, he]
  | some i, none, some m =>
    simp only [wfOD] at h1 h3
    rcases Bool.and_eq_true_iff.mp h1 with ⟨hn1, hs1⟩
    rcases Bool.and_eq_true_iff.mp h3 with ⟨hn3, hs3⟩
    simp only [compatOD] at h13
    obtain ⟨e, he, _, _, _, _⟩ := combineD_spec i m hn1 hn3 hs1 hs3 h13
    refine ⟨some i, some m, some e, rfl, rfl, ?_, ?_⟩ <;>
      simp [combine_dicts_by_addition, he]
  | none, some j, some m =>
    simp only [wfOD] at h2 h3
    rcases Bool.and_eq_true_iff.mp h2 with ⟨hn2, hs2⟩
    rcases Bool.and_eq_true_iff.mp h3 with ⟨hn3, hs3⟩
    simp only [compatOD] at h23
    obtain ⟨e, he, _, _, _, _⟩ := combineD_spec j m hn2 hn3 hs2 hs3 h23
    refine ⟨some j, some e, some e, rfl, ?_, ?_, rfl⟩ <;>
      simp [combine_dicts_by_addition, he]
  | some i, some j, some m =>
    simp only [wfOD] at h1 h2 h3
    rcases Bool.and_eq_true_iff.mp h1 with ⟨hn1, hs1⟩
    rcases Bool.and_eq_true_iff.mp h2 with ⟨hn2, hs2⟩
    rcases Bool.and_eq_true_iff.mp h3 with ⟨hn3, hs3⟩
    simp only [compatOD] at h12 h13 h23
    obtain ⟨e12, e23, e, he12, he23, heL, heR⟩ :=
      combineD_assoc i j m hn1 hn2 hn3 hs1 hs2 hs3 h12 h13 h23
    refine ⟨some e12, some e23, some e, ?_, ?_, ?_, ?_⟩ <;>
      simp [combine_dicts_by_addition, he12, he23, heL, heR]

theorem weight_combine_facts (wp wq : Option Int) (hp : weightOK wp = true)
    (hq : weightOK wq = true) :
    (if truthyW wp || truthyW wq then
        some (wp.getD 0 + wq.getD 0) else (none : Option Int)).getD 0 =
      wp.getD 0 + wq.getD 0 ∧
    truthyW (if truthyW wp || truthyW wq then
        some (wp.getD 0 + wq.getD 0) else none) =
      (truthyW wp || truthyW wq) ∧
    weightOK (if truthyW wp || truthyW wq then
        some (wp.getD 0 + wq.getD 0) else none) = true := by
  match wp, wq with
  | none, none => simp [truthyW, weightOK]
  | none, some w =>
    simp only [weightOK, decide_eq_true_eq] at hq
    by_cases hw : w = 0
    · subst hw
      simp [truthyW, weightOK]
    · simp [truthyW, hw, weightOK]
      omega
  | some v, none =>
    simp only [weightOK, decide_eq_true_eq] at hp
    by_cases hv : v = 0
    · subst hv
      simp [truthyW, weightOK]
    · simp [truthyW, hv, weightOK]
      omega
  | some v, some w =>
    simp only [weightOK, decide_eq_true_eq] at hp hq
    by_cases hv : v = 0 <;> by_cases hw : w = 0
    · subst hv; subst hw
      simp [truthyW, weightOK]
    · subst hv
      simp [truthyW, hw, weightOK]
      omega
    · subst hw
      simp [truthyW, hv, weightOK]
      omega
    · simp only [truthyW, Option.getD_some]
      have hvw : v + w ≠ 0 := by omega
      simp [hv, hw, hvw, weightOK]
      omega

theorem cdba_ok (o1 o2 : Option Dct) (h1 : wfOD o1 = true)
    (h2 : wfOD o2 = true) (hc : compatOD o1 o2 = true) :
    ∃ o : Option Dct, combine_dicts_by_addition o1 o2 = Except.ok o := by
  match o1, o2 with
  | none, none => exact ⟨none, rfl⟩
  | none, some j => exact ⟨some j, rfl⟩
  | some i, none => exact ⟨some i, rfl⟩
  | some i, some j =>
    simp only [wfOD] at h1 h2
    rcases Bool.and_eq_true_iff.mp h1 with ⟨hn1, hs1⟩
    rcases Bool.and_eq_true_iff.mp h2 with ⟨hn2, hs2⟩
    simp only [compatOD] at hc
    obtain ⟨e, he, _, _, _, _⟩ := combineD_spec i j hn1 hn2 hs1 hs2 hc
    exact ⟨some e, by simp [combine_dicts_by_addition, he]⟩

/-- C4 (amended): on well-formed inputs — weights absent or non-negative,
statistics/metrics dicts canonical (key-sorted), `None`-free and pairwise
structurally compatible — `PipelineResult` addition is commutative and
associative; adding the Python value `None` to a `PipelineResult` via
`__radd__` yields it unchanged; a `None` under a statistics/metrics key is
a left identity for the other side's value and a right identity for
truthy values; and for the weight, `None + x = x` whenever `x` is
non-zero.  (For falsy values the code deviates from the claim: see the
counterexample.) -/
theorem pipeline_result_addition_laws (p q r : PipelineResult)
    (hp : wfPR p = true) (hq : wfPR q = true) (hr : wfPR r = true)
    (hpq : compatPR p q = true) (hpr : compatPR p r = true)
    (hqr : compatPR q r = true) :
    (p.add q = q.add p) ∧
    (∃ pq qr : PipelineResult, p.add q = Except.ok pq ∧
      q.add r = Except.ok qr ∧ pq.add r = p.add qr) ∧
    (p.radd none = Except.ok p) ∧
    (∀ y : V, y ≠ V.vnone → ckey V.vnone y = Except.ok (some y)) ∧
    (∀ x : V, truthyV x = true → ckey x V.vnone = Except.ok (some x)) ∧
    (p.weight = none → truthyW q.weight = true →
      ∀ s : PipelineResult, p.add q = Except.ok s →
        s.weight = q.weight) := by
  simp only [wfPR] at hp hq hr
  rcases Bool.and_eq_true_iff.mp hp with ⟨hp1, hmp⟩
  rcases Bool.and_eq_true_iff.mp hp1 with ⟨hwp, hsp⟩
  rcases Bool.and_eq_true_iff.mp hq with ⟨hq1, hmq⟩
  rcases Bool.and_eq_true_iff.mp hq1 with ⟨hwq, hsq⟩
  rcases Bool.and_eq_true_iff.mp hr with ⟨hr1, hmr⟩
  rcases Bool.and_eq_true_iff.mp hr1 with ⟨hwr, hsr⟩
  simp only [compatPR] at hpq hpr hqr
  rcases Bool.and_eq_true_iff.mp hpq with ⟨hcspq, hcmpq⟩
  rcases Bool.and_eq_true_iff.mp hpr with ⟨hcspr, hcmpr⟩
  rcases Bool.and_eq_true_iff.mp hqr with ⟨hcsqr, hcmqr⟩
  refine ⟨?_, ?_, ?_, ?_, ?_, ?_⟩
  · obtain ⟨so, hso⟩ := cdba_ok p.statistics q.statistics hsp hsq hcspq
    obtain ⟨mo, hmo⟩ := cdba_ok p.metrics q.metrics hmp hmq hcmpq
    have hso2 : combine_dicts_by_addition q.statistics p.statistics =
        Except.ok so := by
      rw [← cdba_comm p.statistics q.statistics hsp hsq hcspq]
      exact hso
    have hmo2 : combine_dicts_by_addition q.metrics p.metrics =
        Except.ok mo := by
      rw [← cdba_comm p.metrics q.metrics hmp hmq hcmpq]
      exact hmo
    simp only [PipelineResult.add, hso, hmo, hso2, hmo2]
    rw [Bool.or_comm (truthyW q.weight), Int.add_comm (q.weight.getD 0)]
  · obtain ⟨s12, s23, s, hs12, hs23, hsL, hsR⟩ :=
      cdba_assoc p.statistics q.statistics r.statistics hsp hsq hsr
        hcspq hcspr hcsqr
    obtain ⟨m12, m23, m, hm12, hm23, hmL, hmR⟩ :=
      cdba_assoc p.metrics q.metrics r.metrics hmp hmq hmr
        hcmpq hcmpr hcmqr
    refine ⟨⟨if truthyW p.weight || truthyW q.weight then
        some (p.weight.getD 0 + q.weight.getD 0) else none, s12, m12⟩,
      ⟨if truthyW q.weight || truthyW r.weight then
        some (q.weight.getD 0 + r.weight.getD 0) else none, s23, m23⟩,
      ?_, ?_, ?_⟩
    · simp only [PipelineResult.add, hs12, hm12]
    · simp only [PipelineResult.add, hs23, hm23]
    · have hfpq := weight_combine_facts p.weight q.weight hwp hwq
      have hfqr := weight_combine_facts q.weight r.weight hwq hwr
      simp only [PipelineResult.add, hsL, hmL, hsR, hmR]
      rw [hfpq.2.1, hfqr.2.1, hfpq.1, hfqr.1, Bool.or_assoc, Int.add_assoc]
  · rfl
  · intro y hy
    match y, hy with
    | V.vnum a, _ => simp [ckey]
    | V.vdict d, _ => simp [ckey]
    | V.vnone, hy => exact absurd rfl hy
  · intro x hx
    match x, hx with
    | V.vnum a, hx => simp only [ckey, hx, if_true]
    | V.vdict d, hx => simp only [ckey, hx, if_true]
    | V.vnone, hx => simp [truthyV] at hx
  · intro hpw htq s hs
    obtain ⟨so, hso⟩ := cdba_ok p.statistics q.statistics hsp hsq hcspq
    obtain ⟨mo, hmo⟩ := cdba_ok p.metrics q.metrics hmp hmq hcmpq
    simp only [PipelineResult.add, hso, hmo] at hs
    obtain rfl := Except.ok.inj hs
    match hqw : q.weight, htq with
    | some w, htq =>
      simp only [hpw, truthyW]
      simp [truthyW, hqw] at htq
      simp [htq, hqw]
    | none, htq => simp [truthyW] at htq

/-- C4 counterexample: the weight law `None + x = x` fails at weight `0` —
`PipelineResult(weight=None) + PipelineResult(weight=0)` has weight `None`,
not `0` (the code tests `self.weight or other.weight`, and `0` is falsy) —
and the statistics combination is not commutative on a key holding `0` on
one side and `None` on the other: `{k: 0} + {k: None} = {k: None}` but
`{k: None} + {k: 0} = {k: 0}` (the code takes `i[key] or j[key]`). -/
theorem pipeline_result_addition_counterexample :
    (PipelineResult.add ⟨none, some Dct.dnil, none⟩
        ⟨some 0, some Dct.dnil, none⟩ =
      Except.ok ⟨none, some Dct.dnil, none⟩) ∧
    ((⟨some 0, some Dct.dnil, none⟩ : PipelineResult).weight = some 0) ∧
    (PipelineResult.add
        ⟨none, some (Dct.dcons "k" (V.vnum 0) Dct.dnil), none⟩
        ⟨none, some (Dct.dcons "k" V.vnone Dct.dnil), none⟩ =
      Except.ok ⟨none, some (Dct.dcons "k" V.vnone Dct.dnil), none⟩) ∧
    (PipelineResult.add
        ⟨none, some (Dct.dcons "k" V.vnone Dct.dnil), none⟩
        ⟨none, some (Dct.dcons "k" (V.vnum 0) Dct.dnil), none⟩ =
      Except.ok ⟨none, some (Dct.dcons "k" (V.vnum 0) Dct.dnil), none⟩) ∧
    (Dct.dcons "k" V.vnone Dct.dnil ≠ Dct.dcons "k" (V.vnum 0) Dct.dnil) := by
  refine ⟨?_, rfl, ?_, ?_, by simp⟩
  · simp [PipelineResult.add, combine_dicts_by_addition, combineD, truthyW]
  · simp [PipelineResult.add, combine_dicts_by_addition, combineD, ckey,
      truthyW, truthyV]
  · simp [PipelineResult.add, combine_dicts_by_addition, combineD, ckey,
      truthyW, truthyV]

theorem pipeline_result_addition_laws_witness :
    ((⟨some 2, some (Dct.dcons "a" (V.vnum 1) Dct.dnil), some Dct.dnil⟩ :
        PipelineResult).add
      ⟨none, some (Dct.dcons "a" (V.vnum 3) Dct.dnil), none⟩ =
    (⟨none, some (Dct.dcons "a" (V.vnum 3) Dct.dnil), none⟩ :
        PipelineResult).add
      ⟨some 2, some (Dct.dcons "a" (V.vnum 1) Dct.dnil), some Dct.dnil⟩) ∧
    (∃ pq qr : PipelineResult,
      (⟨some 2, some (Dct.dcons "a" (V.vnum 1) Dct.dnil), some Dct.dnil⟩ :
          PipelineResult).add
        ⟨none, some (Dct.dcons "a" (V.vnum 3) Dct.dnil), none⟩ =
        Except.ok pq ∧
      (⟨none, some (Dct.dcons "a" (V.vnum 3) Dct.dnil), none⟩ :
          PipelineResult).add
        ⟨some 1, none, some (Dct.dcons "b" (V.vnum 5) Dct.dnil)⟩ =
        Except.ok qr ∧
      pq.add ⟨some 1, none, some (Dct.dcons "b" (V.vnum 5) Dct.dnil)⟩ =
        (⟨some 2, some (Dct.dcons "a" (V.vnum 1) Dct.dnil),
            some Dct.dnil⟩ : PipelineResult).add qr) ∧
    ((⟨some 2, some (Dct.dcons "a" (V.vnum 1) Dct.dnil), some Dct.dnil⟩ :
        PipelineResult).radd none =
      Except.ok ⟨some 2, some (Dct.dcons "a" (V.vnum 1) Dct.dnil),
        some Dct.dnil⟩) ∧
    (∀ y : V, y ≠ V.vnone → ckey V.vnone y = Except.ok (some y)) ∧
    (∀ x : V, truthyV x = true → ckey x V.vnone = Except.ok (some x)) ∧
    ((⟨some 2, some (Dct.dcons "a" (V.vnum 1) Dct.dnil), some Dct.dnil⟩ :
        PipelineResult).weight = none →
      truthyW (⟨none, some (Dct.dcons "a" (V.vnum 3) Dct.dnil), none⟩ :
        PipelineResult).weight = true →
      ∀ s : PipelineResult,
        (⟨some 2, some (Dct.dcons "a" (V.vnum 1) Dct.dnil),
            some Dct.dnil⟩ : PipelineResult).add
          ⟨none, some (Dct.dcons "a" (V.vnum 3) Dct.dnil), none⟩ =
          Except.ok s →
        s.weight = (⟨none, some (Dct.dcons "a" (V.vnum 3) Dct.dnil),
          none⟩ : PipelineResult).weight) :=
  pipeline_result_addition_laws
    ⟨some 2, some (Dct.dcons "a" (V.vnum 1) Dct.dnil), some Dct.dnil⟩
    ⟨none, some (Dct.dcons "a" (V.vnum 3) Dct.dnil), none⟩
    ⟨some 1, none, some (Dct.dcons "b" (V.vnum 5) Dct.dnil)⟩
    (by simp [wfPR, weightOK, wfOD, noneFreeD, noneFreeV, sortedD, sortedV,
      keyLtD])
    (by simp [wfPR, weightOK, wfOD, noneFreeD, noneFreeV, sortedD, sortedV,
      keyLtD])
    (by simp [wfPR, weightOK, wfOD, noneFreeD, noneFreeV, sortedD, sortedV,
      keyLtD])
    (by simp [compatPR, compatOD, compatD, compatV])
    (by simp [compatPR, compatOD, compatD, compatV])
    (by simp [compatPR, compatOD, compatD, compatV])
